import Mathlib

/-!
Verification of the `brainbrain` bf-to-text translator (`src/brainbrain.c`).

The development shallowly embeds the translation pipeline:

* the `Op`/`Block` IR data model (C structs `Op`, `Block`),
* the coalescing append `block_append_op`,
* the IR builder `parse` (C function `parse`): the C code builds the block
  graph by mutating heap blocks through a "current block" pointer and an
  explicit stack of unclosed loop headers.  The embedding represents the
  same construction functionally: the current block's operation list is
  `PState.cur`, the finished `(block ops, loop header)` segments of the
  current nesting level are `PState.segs` (most recent first), and each
  enclosing suspended level is a `PFrame` on `PState.stack`.  A `]`
  assembles the finished level into the popped header's subtree; the
  header's `exit` pointer is filled in by `setExit` when its own level is
  assembled, exactly when the C code stores into `backedge->exit`.
* the code emitter `emit_code` (worklist traversal with an explicit stack
  of open loop headers), its per-target chunk renderers, and a sink model
  where each C `fprintf`/`fputs` call is one written chunk.

Machine integers are modelled as `Nat` with explicit `% 2^8` / `% 2^16`
reductions where the C code relies on unsigned wraparound.  The memory
size is a parameter `msz`; the program instantiates it with
`BF_MEMORY_SIZE = 3000`.
-/

set_option maxHeartbeats 1000000

namespace BB

/-- C enum value `OP_TAG_INC`. -/
def OP_TAG_INC : Nat := 0
/-- C enum value `OP_TAG_SHIFT`. -/
def OP_TAG_SHIFT : Nat := 1
/-- C enum value `OP_TAG_READ`. -/
def OP_TAG_READ : Nat := 2
/-- C enum value `OP_TAG_WRITE`. -/
def OP_TAG_WRITE : Nat := 3

/-- The IR operation (C struct `Op`, a tag plus union of `OpInc`/`OpShift`).
`inc value` carries the uint8 delta, `shift index` the uint16 distance. -/
inductive Op where
  | inc (value : Nat)
  | shift (index : Nat)
  | read
  | write
deriving DecidableEq

/-- The C `OpTag` of an operation (field `Op.tag`). -/
def Op.tag : Op → Nat
  | .inc _ => OP_TAG_INC
  | .shift _ => OP_TAG_SHIFT
  | .read => OP_TAG_READ
  | .write => OP_TAG_WRITE

/-- C `#define BF_MEMORY_SIZE 3000`. -/
def BF_MEMORY_SIZE : Nat := 3000

/-- uint8 addition with wraparound (C `last->as.inc.value += op.as.inc.value`
on a `uint8_t`). -/
def u8add (a b : Nat) : Nat := (a + b) % 256

/-- uint16 addition with wraparound (C `last->as.shift.index += op.as.shift.index`
on a `uint16_t`). -/
def u16add (a b : Nat) : Nat := (a + b) % 65536

/-- The same-tag coalescing step of C `block_append_op`: combining the block's
last operation `last` with the incoming `op`.  `inc`+`inc` sums the deltas in
uint8 arithmetic and drops the operation when the sum is 0; `shift`+`shift`
sums in uint16 arithmetic, reduces `% msz` (C `%= BF_MEMORY_SIZE`) and drops
on 0; every other pair (including `read`/`read` and `write`/`write`, which the
C code falls through on) is stored as two separate operations. -/
def appendLast (msz : Nat) (last op : Op) : List Op :=
  match last, op with
  | .inc v, .inc d =>
    if u8add v d = 0 then [] else [.inc (u8add v d)]
  | .shift s, .shift t =>
    if u16add s t % msz = 0 then [] else [.shift (u16add s t % msz)]
  | _, _ => [last, op]

/-- C `block_append_op`: append `op` to the block's operation list, coalescing
with the last stored operation when the tags ask for it. -/
def block_append_op (msz : Nat) : List Op → Op → List Op
  | [], op => [op]
  | [last], op => appendLast msz last op
  | x :: y :: rest, op => x :: block_append_op msz (y :: rest) op

/-- The IR basic block (C struct `Block`): an operation list plus the owned
`next` and `exit` links.  C's nullable pointers become `Option Block`. -/
inductive Block where
  | mk (ops : List Op) (next : Option Block) (exit : Option Block)

/-- Field accessor for `Block.ops`. -/
def Block.ops : Block → List Op
  | .mk o _ _ => o

/-- Field accessor for `Block.next`. -/
def Block.next : Block → Option Block
  | .mk _ n _ => n

/-- Field accessor for `Block.exit`. -/
def Block.exit : Block → Option Block
  | .mk _ _ e => e

/-- Number of blocks in the owned subtree rooted at a block. -/
def Block.size : Block → Nat
  | .mk _ none none => 1
  | .mk _ (some n) none => 1 + n.size
  | .mk _ none (some e) => 1 + e.size
  | .mk _ (some n) (some e) => 1 + n.size + e.size

/-- Every block owns at least itself. -/
theorem Block.size_pos (b : Block) : 0 < b.size := by
  match b with
  | .mk o none none => simp [Block.size]
  | .mk o (some n) none => simp [Block.size]
  | .mk o none (some e) => simp [Block.size]
  | .mk o (some n) (some e) => simp [Block.size]

/-- The pre-order enumeration of the blocks of a program, in the order the
emitter's traversal visits them: the block itself, then the `next` chain
(the loop body for a header), then the `exit` continuation. -/
def preorder : Block → List Block
  | .mk ops none none => [.mk ops none none]
  | .mk ops (some n) none => .mk ops (some n) none :: preorder n
  | .mk ops none (some e) => .mk ops none (some e) :: preorder e
  | .mk ops (some n) (some e) => .mk ops (some n) (some e) :: (preorder n ++ preorder e)

theorem preorder_length (b : Block) : (preorder b).length = b.size := by
  match b with
  | .mk o none none => simp [preorder, Block.size]
  | .mk o (some n) none =>
    simp [preorder, Block.size, preorder_length n]; omega
  | .mk o none (some e) =>
    simp [preorder, Block.size, preorder_length e]; omega
  | .mk o (some n) (some e) =>
    simp [preorder, Block.size, preorder_length n, preorder_length e]; omega

/-- The structural build error (C `crash_bad_bf` has two call sites: a `]`
finding the unclosed-loop stack empty, and end of input with the stack
non-empty; the spec names them `UnmatchedClose` and `UnmatchedOpen`). -/
inductive ParseErr where
  | unmatchedOpen
  | unmatchedClose
deriving DecidableEq

/-- One suspended nesting level of the builder: the finished
`(block ops, loop header)` segments of that level (most recent first) and the
operation list of the block that was current when its `[` was read. -/
structure PFrame where
  segs : List (List Op × Block)
  cur : List Op

/-- The builder state: the stack of suspended enclosing levels (C's `unclosed`
stack, one frame per unmatched `[` so far), the finished segments of the
current level, and the current block's operation list. -/
structure PState where
  stack : List PFrame
  segs : List (List Op × Block)
  cur : List Op

/-- Store `e` into the root block's `exit` pointer (C `backedge->exit = next`).
Within the builder the root's `exit` is still null when this happens. -/
def setExit : Block → Block → Block
  | .mk ops next _, e => .mk ops next (some e)

/-- Re-link a level's finished segments (most recent first) in front of its
last block, reproducing the `next`/`exit` pointer structure the C builder
created in place: each segment's block points `next` at its loop header, and
the header's `exit` receives the chain built so far. -/
def assemble : List (List Op × Block) → Block → Block
  | [], last => last
  | (ops, hdr) :: rest, last => assemble rest (Block.mk ops (some (setExit hdr last)) none)

/-- One step of the builder's character switch (the `switch (*c)` of C
`parse`).  Operation characters append to the current block; `[` suspends the
current level and starts the loop header's level; `]` assembles the finished
level into the popped header (failing with `UnmatchedClose` on an empty
stack, C `blocks_pop` calling `crash_bad_bf`); everything else is a comment. -/
def pstep (msz : Nat) (st : PState) (c : Char) : Except ParseErr PState :=
  if c = '+' then .ok ⟨st.stack, st.segs, block_append_op msz st.cur (.inc 1)⟩
  else if c = '-' then .ok ⟨st.stack, st.segs, block_append_op msz st.cur (.inc 255)⟩
  else if c = '<' then .ok ⟨st.stack, st.segs, block_append_op msz st.cur (.shift (msz - 1))⟩
  else if c = '>' then .ok ⟨st.stack, st.segs, block_append_op msz st.cur (.shift 1)⟩
  else if c = ',' then .ok ⟨st.stack, st.segs, block_append_op msz st.cur .read⟩
  else if c = '.' then .ok ⟨st.stack, st.segs, block_append_op msz st.cur .write⟩
  else if c = '[' then .ok ⟨⟨st.segs, st.cur⟩ :: st.stack, [], []⟩
  else if c = ']' then
    match st.stack with
    | [] => .error .unmatchedClose
    | f :: rest =>
      .ok ⟨rest, (f.cur, assemble st.segs (Block.mk st.cur none none)) :: f.segs, []⟩
  else .ok st

/-- The builder's left-to-right scan over the source characters. -/
def prun (msz : Nat) : PState → List Char → Except ParseErr PState
  | st, [] => .ok st
  | st, c :: cs =>
    match pstep msz st c with
    | .error e => .error e
    | .ok st' => prun msz st' cs

/-- C `parse` on a character list: scan the whole source, fail with
`UnmatchedOpen` if unclosed loops remain (C `if (unclosed.count != 0)
crash_bad_bf()`), otherwise assemble and return the root block. -/
def parseChars (msz : Nat) (src : List Char) : Except ParseErr Block :=
  match prun msz ⟨[], [], []⟩ src with
  | .error e => .error e
  | .ok st =>
    match st.stack with
    | [] => .ok (assemble st.segs (Block.mk st.cur none none))
    | _ :: _ => .error .unmatchedOpen

/-- C `parse` on a source string. -/
def parse (msz : Nat) (src : String) : Except ParseErr Block :=
  parseChars msz src.data

/-! ## The code emitter

Each C `fprintf`/`fputs` call is modelled as one output chunk (a `String`);
an emitting function returns the list of chunks it writes, in order.  The C
functions check every write and return 0 on the first failure; that behaviour
is captured by running the chunk list against a `Sink` with `feed`, which
stops at the first failing write.  The NASM targets print loop labels with
`%p`, the heap address of the header block; the embedding abstracts the
address assignment as a labelling function `lbl : Block → String`. -/

/-- C enum `Target` (the `TARGET_NOT_SELECTED` value never reaches the
emitter). -/
inductive Target where
  | bf
  | nasmLibc
  | nasmLinux
deriving DecidableEq

/-- C `print_tab`: one `fputs("    ", file)` call per indentation level. -/
def print_tab (count : Nat) : List String :=
  List.replicate count "    "

/-- C `emit_file_head`: the target-specific preamble (one `fprintf`). -/
def emit_file_head (msz : Nat) (target : Target) : List String :=
  match target with
  | .bf => []
  | .nasmLinux =>
    ["global _start\n\nsection .bss\ntmp resd 1\n\nsection .data\nmem db "
      ++ toString msz ++ " dup(0)\n\nsection .text\n_start:\nxor esi, esi\n"]
  | .nasmLibc =>
    ["extern putchar\nextern getchar\nextern exit\nglobal _start\n\nsection .data\nmem db "
      ++ toString msz ++ " dup(0)\n\nsection .text\n_start:\nxor esi, esi\n"]

/-- C `emit_file_tail`: the target-specific postamble (one `fprintf`). -/
def emit_file_tail (target : Target) : List String :=
  match target with
  | .bf => []
  | .nasmLinux => ["mov eax, 1\nmov ebx, 0\nint 80h\n"]
  | .nasmLibc => ["mov rdi, 0\ncall exit\n"]

/-- C `emit_loop_head`: for the normalized-source target an indented `[` line;
for the NASM targets the loop label and guard branch, with the header block's
address (`%p`) rendered by `lbl`. -/
def emit_loop_head (target : Target) (lbl : Block → String) (loop : Block)
    (layer : Nat) : List String :=
  match target with
  | .bf => print_tab layer ++ ["[\n"]
  | .nasmLibc | .nasmLinux =>
    [".loop_" ++ lbl loop ++ ":\ncmp byte [mem + esi], 0\nje .end_" ++ lbl loop ++ "\n"]

/-- C `emit_loop_tail`: for the normalized-source target a `]` line indented
one level less; for the NASM targets the back jump and end label. -/
def emit_loop_tail (target : Target) (lbl : Block → String) (loop : Block)
    (layer : Nat) : List String :=
  match target with
  | .bf => print_tab (layer - 1) ++ ["]\n"]
  | .nasmLibc | .nasmLinux =>
    ["jmp .loop_" ++ lbl loop ++ "\n.end_" ++ lbl loop ++ ":\n"]

/-- C `inc_signed_count`: reinterpret the uint8 delta as a signed count,
taking the negative (decrement) direction when the delta exceeds
`INT8_MAX = 127`. -/
def inc_signed_count (value : Nat) : Int :=
  if value > 127 then (value : Int) - 256 else (value : Int)

/-- C `shift_signed_count`: reinterpret the shift distance as a signed count,
taking the negative (move left) direction when the distance exceeds
`msz / 2` (C `BF_MEMORY_SIZE / 2`, integer division). -/
def shift_signed_count (msz : Nat) (index : Nat) : Int :=
  if index > msz / 2 then (index : Int) - (msz : Int) else (index : Int)

/-- C `emit_op_inc`: for the normalized-source target the indentation, one
`fprintf("+")` or `fprintf("-")` per unit of the signed count, and a newline;
for the NASM targets one `fprintf` with the raw uint8 delta. -/
def emit_op_inc (target : Target) (value : Nat) (layer : Nat) : List String :=
  match target with
  | .bf =>
    print_tab layer
      ++ List.replicate (inc_signed_count value).toNat "+"
      ++ List.replicate (-(inc_signed_count value)).toNat "-"
      ++ ["\n"]
  | .nasmLibc | .nasmLinux =>
    ["mov al, [mem + esi]\nadd al, " ++ toString value ++ "\nmov [mem + esi], al\n"]

/-- C `emit_op_shift`: for the normalized-source target the indentation, one
`fprintf(">")` or `fprintf("<")` per unit of the signed count, and a newline;
for the NASM targets one `fprintf` doing the modular pointer arithmetic. -/
def emit_op_shift (msz : Nat) (target : Target) (index : Nat) (layer : Nat) : List String :=
  match target with
  | .bf =>
    print_tab layer
      ++ List.replicate (shift_signed_count msz index).toNat ">"
      ++ List.replicate (-(shift_signed_count msz index)).toNat "<"
      ++ ["\n"]
  | .nasmLibc | .nasmLinux =>
    ["add si, " ++ toString index ++ "\nxor dx, dx\nmov ax, si\nmov bx, "
      ++ toString msz ++ "\ndiv bx\nmov si, dx\n"]

/-- C `emit_op_read`. -/
def emit_op_read (target : Target) (layer : Nat) : List String :=
  match target with
  | .bf => print_tab layer ++ [",\n"]
  | .nasmLibc => ["call getchar\nmov [mem + esi], al\n"]
  | .nasmLinux =>
    ["mov eax, 0x3\nmov ebx, 0x1\nmov ecx, tmp\nmov edx, 0x1\nint 80h\nmov eax, [tmp]\nmov [mem + esi], eax\n"]

/-- C `emit_op_write`. -/
def emit_op_write (target : Target) (layer : Nat) : List String :=
  match target with
  | .bf => print_tab layer ++ [".\n"]
  | .nasmLibc => ["xor rdi, rdi\nmov dil, [mem + esi]\ncall putchar\n"]
  | .nasmLinux =>
    ["xor eax, eax\nmov al, [mem + esi]\nmov [tmp], eax\nmov eax, 0x4\nmov ebx, 0x1\nmov ecx, tmp\nmov edx, 0x1\nint 80h\n"]

/-- The per-operation dispatch inside C `emit_code`'s `switch (op.tag)`. -/
def emit_op (msz : Nat) (target : Target) (op : Op) (layer : Nat) : List String :=
  match op with
  | .inc v => emit_op_inc target v layer
  | .shift s => emit_op_shift msz target s layer
  | .read => emit_op_read target layer
  | .write => emit_op_write target layer

/-- The `for` loop over a block's operations inside C `emit_code`. -/
def opsChunks (msz : Nat) (target : Target) : List Op → Nat → List String
  | [], _ => []
  | op :: rest, layer => emit_op msz target op layer ++ opsChunks msz target rest layer

/-- What one run of the emitter's worklist traversal produces: the chunks it
writes, the blocks it visits (in visit order), and the final value of the
nesting-depth counter `layer`. -/
structure WalkOut where
  chunks : List String
  visited : List Block
  layerEnd : Nat

/-- Combined size of the pending `exit` subtrees held on the emitter's
open-loop stack. -/
def stackMes : List (Block × Block) → Nat
  | [] => 0
  | (_, e) :: rest => e.size + stackMes rest

/-- Termination measure of the emitter's traversal: blocks still to be
visited from the current block plus the stacked `exit` continuations. -/
def Mw (b : Block) (st : List (Block × Block)) : Nat :=
  b.size + stackMes st

/-- The worklist loop of C `emit_code` (`while (1) { ... }`), with an
explicit fuel argument making the iteration count syntactically finite; every
transition strictly decreases the measure `Mw`, so fuel `Mw b st` (proved
below) suffices and the `fuel = 0` branch is never reached from `emit_code`.
The stack holds `(header, exit)` pairs: the C code pushes the header block
(whose `exit` it reads back after popping).  Per C iteration: a block with an
`exit` link is a loop header, so emit the loop-open form, push it and
increment `layer`; emit the block's operations; then advance to `next`, or,
at a chain end, pop the innermost open loop, emit its loop-close form and
continue from its `exit` with `layer` decremented — or, with no open loop
left, terminate (the single well-formed exit point). -/
def walk (msz : Nat) (target : Target) (lbl : Block → String) :
    Nat → Block → List (Block × Block) → Nat → WalkOut
  | 0, _, _, layer => ⟨[], [], layer⟩
  | fuel + 1, .mk ops next exit, st, layer =>
    match next, exit with
    | some n, none =>
      let r := walk msz target lbl fuel n st layer
      ⟨opsChunks msz target ops layer ++ r.chunks,
        .mk ops (some n) none :: r.visited, r.layerEnd⟩
    | some n, some e =>
      let r := walk msz target lbl fuel n ((Block.mk ops (some n) (some e), e) :: st) (layer + 1)
      ⟨emit_loop_head target lbl (.mk ops (some n) (some e)) layer
          ++ opsChunks msz target ops (layer + 1) ++ r.chunks,
        .mk ops (some n) (some e) :: r.visited, r.layerEnd⟩
    | none, some e =>
      let r := walk msz target lbl fuel e st layer
      ⟨emit_loop_head target lbl (.mk ops none (some e)) layer
          ++ opsChunks msz target ops (layer + 1)
          ++ emit_loop_tail target lbl (.mk ops none (some e)) (layer + 1) ++ r.chunks,
        .mk ops none (some e) :: r.visited, r.layerEnd⟩
    | none, none =>
      match st with
      | [] => ⟨opsChunks msz target ops layer, [.mk ops none none], layer⟩
      | (h, e) :: rest =>
        let r := walk msz target lbl fuel e rest (layer - 1)
        ⟨opsChunks msz target ops layer ++ emit_loop_tail target lbl h layer ++ r.chunks,
          .mk ops none none :: r.visited, r.layerEnd⟩

/-- C `emit_code`: file head, the worklist traversal from the root block with
an empty open-loop stack and `layer = 0`, then the file tail.  Returns the
chunk list of every write the emitter performs, in order. -/
def emit_code (msz : Nat) (target : Target) (lbl : Block → String) (b : Block) : List String :=
  emit_file_head msz target
    ++ (walk msz target lbl (Mw b []) b [] 0).chunks
    ++ emit_file_tail target

/-- Concatenation of a chunk list into the full output text. -/
def strConcat : List String → String
  | [] => ""
  | s :: rest => s ++ strConcat rest

/-- Concatenation of a chunk list into the full output character list. -/
def joinChunks : List String → List Char
  | [] => []
  | s :: rest => s.data ++ joinChunks rest

/-- The output sink (C `FILE*` from the emitter's point of view): the text
already written plus the number of writes that will still succeed — the sink
accepts `fuel` writes and then reports failure on every later write (a writer
that has failed is treated as permanently broken). -/
structure Sink where
  out : String
  fuel : Nat
deriving DecidableEq

/-- One write to the sink (one C `fprintf`/`fputs` call): on success the text
is appended; on failure the sink is left as it is and the failure is
reported. -/
def wr (s : String) : Sink → Except Sink Sink
  | ⟨out, 0⟩ => .error ⟨out, 0⟩
  | ⟨out, fuel + 1⟩ => .ok ⟨out ++ s, fuel⟩

/-- Run a chunk list against a sink, stopping at the first failed write (the
C emitter checks every write's return value and `goto error`s immediately). -/
def feed (s : Sink) : List String → Except Sink Sink
  | [] => .ok s
  | c :: rest =>
    match wr c s with
    | .error s' => .error s'
    | .ok s' => feed s' rest

/-- The emitter run against a fallible sink: `emit_code`'s writes performed
in order until the first failure. -/
def emit (msz : Nat) (target : Target) (lbl : Block → String) (b : Block)
    (s : Sink) : Except Sink Sink :=
  feed s (emit_code msz target lbl b)

/-! ## Specification-side definitions

These definitions follow the spec's words, not the C code; the claim
theorems compare the code's behaviour against them. -/

/-- Modelled from the spec: "`[`/`]` are balanced and properly nested" with
the sub-kind of the first violation — a `]` with no open `[` is
`UnmatchedClose`; one or more `[` left open at end of input is
`UnmatchedOpen`; `k` counts the currently open `[`. -/
def specBracketScan : List Char → Nat → Option ParseErr
  | [], 0 => none
  | [], _ + 1 => some .unmatchedOpen
  | c :: cs, k =>
    if c = '[' then specBracketScan cs (k + 1)
    else if c = ']' then
      match k with
      | 0 => some .unmatchedClose
      | k' + 1 => specBracketScan cs k'
    else specBracketScan cs k

/-- One of the eight bf instruction characters (a source with only these has
"no comment characters"). -/
def isBfChar (c : Char) : Bool :=
  c = '+' || c = '-' || c = '<' || c = '>' || c = ',' || c = '.' || c = '[' || c = ']'

/-- The claim's literal reading of the adjacency invariant: no two adjacent
operations share the same variant tag (for all four tags). -/
def distinctAdjTags : List Op → Bool
  | [] => true
  | [_] => true
  | a :: b :: rest => decide (a.tag ≠ b.tag) && distinctAdjTags (b :: rest)

/-- Net delta (in uint8 units) of a run of `+`/`-` characters: `+` counts 1
and `-` counts 255 (the builder's representation of decrement). -/
def incNet : List Char → Nat
  | [] => 0
  | c :: cs => (if c = '+' then 1 else if c = '-' then 255 else 0) + incNet cs

/-- Net distance (mod the memory size) of a run of `<`/`>` characters: `>`
counts 1 and `<` counts `msz - 1`. -/
def shiftNet (msz : Nat) : List Char → Nat
  | [] => 0
  | c :: cs => (if c = '>' then 1 else if c = '<' then msz - 1 else 0) + shiftNet msz cs

/-! ## Well-formedness of the built IR -/

/-- A stored operation is well formed when its payload is non-zero and
reduced: an `inc` delta lies in `1..255`, a `shift` distance in
`1..msz-1`. -/
def opOK (msz : Nat) : Op → Bool
  | .inc v => decide (0 < v) && decide (v < 256)
  | .shift s => decide (0 < s) && decide (s < msz)
  | .read => true
  | .write => true

/-- Two operations that are allowed to sit next to each other in a block:
everything except `inc`/`inc` and `shift`/`shift` (which the builder always
coalesces). -/
def noTwin : Op → Op → Bool
  | .inc _, .inc _ => false
  | .shift _, .shift _ => false
  | _, _ => true

/-- Adjacent pairs of the list all satisfy `noTwin`. -/
def chainOK : List Op → Bool
  | [] => true
  | [_] => true
  | a :: b :: rest => noTwin a b && chainOK (b :: rest)

/-- A block's operation list as the builder produces it: every stored
operation in range and non-zero, and no two adjacent coalescible
operations. -/
def opsWF (msz : Nat) (ops : List Op) : Bool :=
  ops.all (opOK msz) && chainOK ops

mutual

/-- Structural well-formedness of a chain block as the builder produces it:
its `exit` is null (only loop headers carry `exit`), its operations are well
formed, and its `next`, when present, is a well-formed loop header. -/
inductive ChainWF (msz : Nat) : Block → Prop
  | last (ops) : opsWF msz ops = true → ChainWF msz (.mk ops none none)
  | seg (ops h) : opsWF msz ops = true → HeadWF msz h → ChainWF msz (.mk ops (some h) none)

/-- Structural well-formedness of a loop header: it carries an `exit`
continuation which is a well-formed chain, its operations are well formed,
and its `next` (the rest of the loop body), when present, is again a
well-formed loop header. -/
inductive HeadWF (msz : Nat) : Block → Prop
  | last (ops e) : opsWF msz ops = true → ChainWF msz e → HeadWF msz (.mk ops none (some e))
  | seg (ops h e) : opsWF msz ops = true → HeadWF msz h → ChainWF msz e →
      HeadWF msz (.mk ops (some h) (some e))

end

/-! ## Normalized-source text of a program, structurally

`renderBlock` gives the character stream the BF-target emitter writes for a
subtree, by structural recursion instead of a worklist; the traversal lemma
below identifies it with `emit_code`'s output.  The round-trip proof then
works against this structural form. -/

/-- The character stream of one rendered operation line (indentation,
direction characters, newline) — the flattening of the BF-target chunk list
of `emit_op`. -/
def renderOp (msz : Nat) (op : Op) (layer : Nat) : List Char :=
  joinChunks (emit_op msz .bf op layer)

/-- The character stream of a block's rendered operation lines. -/
def opsChars (msz : Nat) : List Op → Nat → List Char
  | [], _ => []
  | op :: rest, layer => renderOp msz op layer ++ opsChars msz rest layer

/-- The normalized-source text of the subtree under a block, structurally:
a loop header renders `[`, its own operations and `next` chain one level
deeper, `]`, then its `exit` continuation. -/
def renderBlock (msz : Nat) : Block → Nat → List Char
  | .mk ops none none, layer => opsChars msz ops layer
  | .mk ops (some n) none, layer => opsChars msz ops layer ++ renderBlock msz n layer
  | .mk ops none (some e), layer =>
    joinChunks (print_tab layer) ++ ['[', '\n']
      ++ opsChars msz ops (layer + 1)
      ++ joinChunks (print_tab layer) ++ [']', '\n']
      ++ renderBlock msz e layer
  | .mk ops (some n) (some e), layer =>
    joinChunks (print_tab layer) ++ ['[', '\n']
      ++ opsChars msz ops (layer + 1) ++ renderBlock msz n (layer + 1)
      ++ joinChunks (print_tab layer) ++ [']', '\n']
      ++ renderBlock msz e layer

/-- The text still owed by the emitter's open-loop stack: for each stacked
`(header, exit)` pair, the closing `]` line and the `exit` continuation's
text, one indentation level less each time. -/
def popsRender (msz : Nat) : List (Block × Block) → Nat → List Char
  | [], _ => []
  | (_, e) :: rest, layer =>
    joinChunks (print_tab (layer - 1)) ++ [']', '\n']
      ++ renderBlock msz e (layer - 1) ++ popsRender msz rest (layer - 1)

/-- The segments a well-formed chain decomposes into, most recent first —
the inverse of `assemble`: each `(ops, header-without-exit)` pair of the
chain, the oldest last. -/
def chainSegs : Block → List (List Op × Block)
  | .mk _ none _ => []
  | .mk ops (some (.mk hops hnext (some e))) _ =>
    chainSegs e ++ [(ops, Block.mk hops hnext none)]
  | .mk _ (some (.mk _ _ none)) _ => []

/-- The operations of the last block of a well-formed chain — the `last`
argument `assemble` rebuilds the chain from. -/
def chainLast : Block → List Op
  | .mk ops none _ => ops
  | .mk _ (some (.mk _ _ (some e))) _ => chainLast e
  | .mk _ (some (.mk _ _ none)) _ => []

/-! ## Helper lemmas: the coalescing append -/

theorem block_append_op_concat (msz : Nat) :
    ∀ (xs : List Op) (a op : Op),
      block_append_op msz (xs ++ [a]) op = xs ++ appendLast msz a op
  | [], _, _ => rfl
  | [x], _, _ => rfl
  | x :: y :: rest, a, op => by
    have ih := block_append_op_concat msz (y :: rest) a op
    simp only [List.cons_append, block_append_op] at ih ⊢
    exact congrArg _ ih

theorem appendLast_read (msz : Nat) (a : Op) : appendLast msz a .read = [a, .read] := by
  cases a <;> rfl

theorem appendLast_write (msz : Nat) (a : Op) : appendLast msz a .write = [a, .write] := by
  cases a <;> rfl

theorem block_append_op_read (msz : Nat) (cur : List Op) :
    block_append_op msz cur .read = cur ++ [.read] := by
  rcases List.eq_nil_or_concat cur with h | ⟨xs, a, h⟩ <;> subst h
  · rfl
  · rw [List.concat_eq_append, block_append_op_concat, appendLast_read]
    simp

theorem block_append_op_write (msz : Nat) (cur : List Op) :
    block_append_op msz cur .write = cur ++ [.write] := by
  rcases List.eq_nil_or_concat cur with h | ⟨xs, a, h⟩ <;> subst h
  · rfl
  · rw [List.concat_eq_append, block_append_op_concat, appendLast_write]
    simp

theorem appendLast_noTwin (msz : Nat) (a op : Op) (h : noTwin a op = true) :
    appendLast msz a op = [a, op] := by
  cases a <;> cases op <;> simp_all [noTwin, appendLast]

/-! ## Helper lemmas: chains of non-coalescible operations -/

theorem chainOK_concat (xs : List Op) (a : Op) :
    chainOK (xs ++ [a]) =
      (chainOK xs && match xs.getLast? with | none => true | some x => noTwin x a) := by
  induction xs with
  | nil => simp [chainOK]
  | cons x xs ih =>
    cases xs with
    | nil => simp [chainOK]
    | cons y ys =>
      simp only [List.cons_append, chainOK, List.append_eq, List.getLast?_cons_cons] at ih ⊢
      rw [ih, Bool.and_assoc]

theorem chainOK_pair (ys : List Op) (u v : Op) (h : chainOK (ys ++ [u, v]) = true) :
    noTwin u v = true := by
  have he : ys ++ [u, v] = (ys ++ [u]) ++ [v] := by simp
  rw [he, chainOK_concat, Bool.and_eq_true] at h
  have hl : (ys ++ [u]).getLast? = some u := by simp
  rw [hl] at h
  exact h.2

/-- Appending an operation whose tag does not coalesce with the list's last
entry stores it as a fresh entry. -/
theorem block_append_op_fresh (msz : Nat) (cur : List Op) (op : Op)
    (h : chainOK (cur ++ [op]) = true) :
    block_append_op msz cur op = cur ++ [op] := by
  rcases List.eq_nil_or_concat cur with hc | ⟨xs, a, hc⟩ <;> subst hc
  · rfl
  · rw [List.concat_eq_append] at h ⊢
    rw [block_append_op_concat, appendLast_noTwin]
    · simp
    · exact chainOK_pair xs a op (by simpa using h)

theorem noTwin_inc_congr (x : Op) (v w : Nat) : noTwin x (.inc v) = noTwin x (.inc w) := by
  cases x <;> rfl

theorem noTwin_shift_congr (x : Op) (v w : Nat) :
    noTwin x (.shift v) = noTwin x (.shift w) := by
  cases x <;> rfl

/-- The tag of the last stored operation, used to state that a coalescing run
starts fresh. -/
def lastTagIsNot (cur : List Op) (t : Nat) : Bool :=
  match cur.getLast? with
  | none => true
  | some a => decide (a.tag ≠ t)

theorem lastTagIsNot_of_chainOK_inc (cur : List Op) (v : Nat)
    (h : chainOK (cur ++ [.inc v]) = true) : lastTagIsNot cur OP_TAG_INC = true := by
  rw [chainOK_concat, Bool.and_eq_true] at h
  unfold lastTagIsNot
  cases hl : cur.getLast? with
  | none => rfl
  | some a =>
    rw [hl] at h
    cases a <;> simp_all [noTwin, Op.tag, OP_TAG_INC, OP_TAG_SHIFT, OP_TAG_READ, OP_TAG_WRITE]

theorem lastTagIsNot_of_chainOK_shift (cur : List Op) (v : Nat)
    (h : chainOK (cur ++ [.shift v]) = true) : lastTagIsNot cur OP_TAG_SHIFT = true := by
  rw [chainOK_concat, Bool.and_eq_true] at h
  unfold lastTagIsNot
  cases hl : cur.getLast? with
  | none => rfl
  | some a =>
    rw [hl] at h
    cases a <;> simp_all [noTwin, Op.tag, OP_TAG_INC, OP_TAG_SHIFT, OP_TAG_READ, OP_TAG_WRITE]

/-! ## Helper lemmas: modular arithmetic of coalescing runs -/

/-- `(msz - 1) · k ≡ -k (mod msz)`: a run of `k` "one step backwards"
operations nets to `msz - k`. -/
theorem mod_neg_one_mul (msz k : Nat) (h1 : 1 ≤ k) (h2 : k < msz) :
    ((msz - 1) * k) % msz = msz - k := by
  have hm1 : 1 ≤ msz := le_trans h1 h2.le
  have heq : (msz - 1) * k = msz * (k - 1) + (msz - k) := by
    zify [h1, h2.le, hm1]
    ring
  rw [heq, Nat.mul_add_mod]
  exact Nat.mod_eq_of_lt (by omega)

theorem noTwin_of_tag_ne (a b : Op) (h : a.tag ≠ b.tag) : noTwin a b = true := by
  cases a <;> cases b <;>
    simp_all [noTwin, Op.tag, OP_TAG_INC, OP_TAG_SHIFT, OP_TAG_READ, OP_TAG_WRITE]

theorem block_append_op_lastNot (msz : Nat) (cur : List Op) (op : Op)
    (h : lastTagIsNot cur op.tag = true) : block_append_op msz cur op = cur ++ [op] := by
  rcases List.eq_nil_or_concat cur with hc | ⟨xs, a, hc⟩ <;> subst hc
  · rfl
  · unfold lastTagIsNot at h
    rw [List.concat_eq_append] at h ⊢
    rw [List.getLast?_concat, decide_eq_true_eq] at h
    rw [block_append_op_concat,
      appendLast_noTwin msz a op (noTwin_of_tag_ne a op h)]
    simp

/-! ## Helper lemmas: the builder's scan -/

/-- The operation a source character translates to (the `Op tag = ...`
conditional chain in C `parse`). -/
def charOp (msz : Nat) (c : Char) : Op :=
  if c = '+' then .inc 1
  else if c = '-' then .inc 255
  else if c = '<' then .shift (msz - 1)
  else if c = '>' then .shift 1
  else if c = ',' then .read
  else .write

/-- One of the six operation characters. -/
def isOpChar (c : Char) : Bool :=
  c = '+' || c = '-' || c = '<' || c = '>' || c = ',' || c = '.'

theorem pstep_op (msz : Nat) (st : PState) (c : Char) (h : isOpChar c = true) :
    pstep msz st c = .ok ⟨st.stack, st.segs, block_append_op msz st.cur (charOp msz c)⟩ := by
  simp only [isOpChar, Bool.or_eq_true, decide_eq_true_eq] at h
  rcases h with ((((h | h) | h) | h) | h) | h <;> subst h <;> rfl

theorem pstep_comment (msz : Nat) (st : PState) (c : Char) (h : isBfChar c = false) :
    pstep msz st c = .ok st := by
  simp only [isBfChar, Bool.or_eq_false_iff, decide_eq_false_iff_not] at h
  obtain ⟨⟨⟨⟨⟨⟨⟨h1, h2⟩, h3⟩, h4⟩, h5⟩, h6⟩, h7⟩, h8⟩ := h
  simp [pstep, h1, h2, h3, h4, h5, h6, h7, h8]

theorem prun_append (msz : Nat) (a b : List Char) (st : PState) :
    prun msz st (a ++ b) =
      match prun msz st a with
      | .error e => .error e
      | .ok st' => prun msz st' b := by
  induction a generalizing st with
  | nil => simp [prun]
  | cons c cs ih =>
    simp only [List.cons_append, prun]
    cases pstep msz st c with
    | error e => rfl
    | ok st' => exact ih st'

theorem prun_comments (msz : Nat) (run : List Char) (st : PState)
    (h : run.all (fun c => !isBfChar c) = true) : prun msz st run = .ok st := by
  induction run with
  | nil => rfl
  | cons c cs ih =>
    rw [List.all_cons, Bool.and_eq_true, Bool.not_eq_true'] at h
    simp only [prun, pstep_comment msz st c h.1]
    exact ih h.2

theorem prun_opRun (msz : Nat) (run : List Char) (h : run.all isOpChar = true) :
    ∀ fs segs cur, prun msz ⟨fs, segs, cur⟩ run
      = .ok ⟨fs, segs, run.foldl (fun l c => block_append_op msz l (charOp msz c)) cur⟩ := by
  induction run with
  | nil => intro fs segs cur; rfl
  | cons c cs ih =>
    rw [List.all_cons, Bool.and_eq_true] at h
    intro fs segs cur
    simp only [prun, pstep_op msz ⟨fs, segs, cur⟩ c h.1, List.foldl_cons]
    exact ih h.2 fs segs _

/-! ## Helper lemmas: coalescing a run of `+`/`-` (resp. `<`/`>`)

The two parts characterise folding a run of increment characters into a
block's operation list whose last entry is, respectively, not an `inc`, or
the `inc` `v`; the run's effect depends only on its net delta. -/

theorem foldIncChars (msz : Nat) :
    ∀ (run : List Char), run.all (fun c => c = '+' || c = '-') = true →
      (∀ pre, lastTagIsNot pre OP_TAG_INC = true →
        run.foldl (fun l c => block_append_op msz l (charOp msz c)) pre
          = if incNet run % 256 = 0 then pre else pre ++ [.inc (incNet run % 256)])
      ∧ (∀ pre v, lastTagIsNot pre OP_TAG_INC = true → 0 < v → v < 256 →
        run.foldl (fun l c => block_append_op msz l (charOp msz c)) (pre ++ [.inc v])
          = if (v + incNet run) % 256 = 0 then pre
            else pre ++ [.inc ((v + incNet run) % 256)]) := by
  intro run
  induction run with
  | nil =>
    intro _
    constructor
    · intro pre _
      simp [incNet]
    · intro pre v _ hv0 hv1
      simp [incNet, Nat.mod_eq_of_lt hv1, Nat.pos_iff_ne_zero.mp hv0]
  | cons c cs ih =>
    intro hall
    rw [List.all_cons, Bool.and_eq_true] at hall
    obtain ⟨hc, hcs⟩ := hall
    have ih1 := (ih hcs).1
    have ih2 := (ih hcs).2
    have hd : ∃ d : Nat, charOp msz c = .inc d ∧ 0 < d ∧ d < 256 ∧
        incNet (c :: cs) = d + incNet cs := by
      rw [Bool.or_eq_true, decide_eq_true_eq, decide_eq_true_eq] at hc
      rcases hc with hc | hc <;> subst hc
      · exact ⟨1, rfl, by omega, by omega, by simp [incNet]⟩
      · exact ⟨255, rfl, by omega, by omega, by simp [incNet]⟩
    obtain ⟨d, hdop, hd0, hd1, hdnet⟩ := hd
    constructor
    · intro pre hpre
      rw [List.foldl_cons, hdop,
        block_append_op_lastNot msz pre (.inc d) (by simpa [Op.tag] using hpre)]
      rw [ih2 pre d hpre hd0 hd1, hdnet]
    · intro pre v hpre hv0 hv1
      rw [List.foldl_cons, hdop, block_append_op_concat, hdnet]
      show List.foldl _ (pre ++ appendLast msz (.inc v) (.inc d)) cs = _
      rw [appendLast]
      by_cases hz : u8add v d = 0
      · rw [if_pos hz]
        simp only [List.append_nil]
        rw [ih1 pre hpre]
        have hmod : (v + (d + incNet cs)) % 256 = incNet cs % 256 := by
          have : v + (d + incNet cs) = (v + d) + incNet cs := by ring
          rw [this, Nat.add_mod, show (v + d) % 256 = 0 from hz, Nat.zero_add, Nat.mod_mod]
        rw [hmod]
      · rw [if_neg hz]
        have hw1 : u8add v d < 256 := Nat.mod_lt _ (by omega)
        rw [ih2 pre (u8add v d) hpre (Nat.pos_of_ne_zero hz) hw1]
        have hmod : (u8add v d + incNet cs) % 256 = (v + (d + incNet cs)) % 256 := by
          unfold u8add
          rw [Nat.mod_add_mod, ← Nat.add_assoc]
        rw [hmod]

theorem foldShiftChars (msz : Nat) (h2 : 2 ≤ msz) (hms : 2 * msz ≤ 65536) :
    ∀ (run : List Char), run.all (fun c => c = '<' || c = '>') = true →
      (∀ pre, lastTagIsNot pre OP_TAG_SHIFT = true →
        run.foldl (fun l c => block_append_op msz l (charOp msz c)) pre
          = if shiftNet msz run % msz = 0 then pre
            else pre ++ [.shift (shiftNet msz run % msz)])
      ∧ (∀ pre v, lastTagIsNot pre OP_TAG_SHIFT = true → 0 < v → v < msz →
        run.foldl (fun l c => block_append_op msz l (charOp msz c)) (pre ++ [.shift v])
          = if (v + shiftNet msz run) % msz = 0 then pre
            else pre ++ [.shift ((v + shiftNet msz run) % msz)]) := by
  intro run
  induction run with
  | nil =>
    intro _
    constructor
    · intro pre _
      simp [shiftNet]
    · intro pre v _ hv0 hv1
      simp [shiftNet, Nat.mod_eq_of_lt hv1, Nat.pos_iff_ne_zero.mp hv0]
  | cons c cs ih =>
    intro hall
    rw [List.all_cons, Bool.and_eq_true] at hall
    obtain ⟨hc, hcs⟩ := hall
    have ih1 := (ih hcs).1
    have ih2 := (ih hcs).2
    have hd : ∃ d : Nat, charOp msz c = .shift d ∧ 0 < d ∧ d < msz ∧
        shiftNet msz (c :: cs) = d + shiftNet msz cs := by
      rw [Bool.or_eq_true, decide_eq_true_eq, decide_eq_true_eq] at hc
      rcases hc with hc | hc <;> subst hc
      · exact ⟨msz - 1, rfl, by omega, by omega, by simp [shiftNet]⟩
      · exact ⟨1, rfl, by omega, by omega, by simp [shiftNet]⟩
    obtain ⟨d, hdop, hd0, hd1, hdnet⟩ := hd
    constructor
    · intro pre hpre
      rw [List.foldl_cons, hdop,
        block_append_op_lastNot msz pre (.shift d) (by simpa [Op.tag] using hpre)]
      rw [ih2 pre d hpre hd0 hd1, hdnet]
    · intro pre v hpre hv0 hv1
      rw [List.foldl_cons, hdop, block_append_op_concat, hdnet]
      show List.foldl _ (pre ++ appendLast msz (.shift v) (.shift d)) cs = _
      rw [appendLast]
      have hu16 : u16add v d = v + d := by
        unfold u16add
        exact Nat.mod_eq_of_lt (by omega)
      by_cases hz : u16add v d % msz = 0
      · rw [if_pos hz]
        simp only [List.append_nil]
        rw [ih1 pre hpre]
        have hmod : (v + (d + shiftNet msz cs)) % msz = shiftNet msz cs % msz := by
          have ha : v + (d + shiftNet msz cs) = (v + d) + shiftNet msz cs := by ring
          rw [ha, Nat.add_mod, show (v + d) % msz = 0 from hu16 ▸ hz,
            Nat.zero_add, Nat.mod_mod]
        rw [hmod]
      · rw [if_neg hz]
        have hw1 : u16add v d % msz < msz := Nat.mod_lt _ (by omega)
        rw [ih2 pre (u16add v d % msz) hpre (Nat.pos_of_ne_zero hz) hw1]
        have hmod : (u16add v d % msz + shiftNet msz cs) % msz
            = (v + (d + shiftNet msz cs)) % msz := by
          rw [hu16, Nat.mod_add_mod, ← Nat.add_assoc]
        rw [hmod]

/-! ## Helper lemmas: splitting a well-formed operation list at its tail -/

theorem opsWF_concat (msz : Nat) (xs : List Op) (a : Op) :
    opsWF msz (xs ++ [a]) = true ↔
      (opsWF msz xs = true ∧ opOK msz a = true ∧
        (match xs.getLast? with | none => True | some x => noTwin x a = true)) := by
  unfold opsWF
  rw [List.all_append, chainOK_concat]
  cases hl : xs.getLast? with
  | none =>
    simp [Bool.and_eq_true, List.all_cons]
    tauto
  | some x =>
    simp [Bool.and_eq_true, List.all_cons]
    tauto

theorem curSplitInc (msz : Nat) (cur : List Op) (h : opsWF msz cur = true) :
    lastTagIsNot cur OP_TAG_INC = true ∨
      ∃ pre v, cur = pre ++ [.inc v] ∧ lastTagIsNot pre OP_TAG_INC = true
        ∧ 0 < v ∧ v < 256 := by
  rcases List.eq_nil_or_concat cur with hc | ⟨xs, a, hc⟩ <;> subst hc
  · left; rfl
  · rw [List.concat_eq_append] at h ⊢
    unfold opsWF at h
    rw [Bool.and_eq_true, List.all_append, Bool.and_eq_true] at h
    obtain ⟨⟨_, halla⟩, hchain⟩ := h
    cases a with
    | inc v =>
      have hok : opOK msz (.inc v) = true := by simpa [List.all_cons] using halla
      rw [opOK, Bool.and_eq_true, decide_eq_true_eq, decide_eq_true_eq] at hok
      exact Or.inr ⟨xs, v, rfl, lastTagIsNot_of_chainOK_inc xs v hchain, hok.1, hok.2⟩
    | shift s =>
      left
      unfold lastTagIsNot
      rw [List.getLast?_concat]
      simp [Op.tag, OP_TAG_SHIFT, OP_TAG_INC]
    | read =>
      left
      unfold lastTagIsNot
      rw [List.getLast?_concat]
      simp [Op.tag, OP_TAG_READ, OP_TAG_INC]
    | write =>
      left
      unfold lastTagIsNot
      rw [List.getLast?_concat]
      simp [Op.tag, OP_TAG_WRITE, OP_TAG_INC]

theorem curSplitShift (msz : Nat) (cur : List Op) (h : opsWF msz cur = true) :
    lastTagIsNot cur OP_TAG_SHIFT = true ∨
      ∃ pre v, cur = pre ++ [.shift v] ∧ lastTagIsNot pre OP_TAG_SHIFT = true
        ∧ 0 < v ∧ v < msz := by
  rcases List.eq_nil_or_concat cur with hc | ⟨xs, a, hc⟩ <;> subst hc
  · left; rfl
  · rw [List.concat_eq_append] at h ⊢
    unfold opsWF at h
    rw [Bool.and_eq_true, List.all_append, Bool.and_eq_true] at h
    obtain ⟨⟨_, halla⟩, hchain⟩ := h
    cases a with
    | shift v =>
      have hok : opOK msz (.shift v) = true := by simpa [List.all_cons] using halla
      rw [opOK, Bool.and_eq_true, decide_eq_true_eq, decide_eq_true_eq] at hok
      exact Or.inr ⟨xs, v, rfl, lastTagIsNot_of_chainOK_shift xs v hchain, hok.1, hok.2⟩
    | inc v =>
      left
      unfold lastTagIsNot
      rw [List.getLast?_concat]
      simp [Op.tag, OP_TAG_SHIFT, OP_TAG_INC]
    | read =>
      left
      unfold lastTagIsNot
      rw [List.getLast?_concat]
      simp [Op.tag, OP_TAG_READ, OP_TAG_SHIFT]
    | write =>
      left
      unfold lastTagIsNot
      rw [List.getLast?_concat]
      simp [Op.tag, OP_TAG_WRITE, OP_TAG_SHIFT]

/-- Folding a zero-net run of `+`/`-` characters over a well-formed current
operation list leaves the builder state unchanged. -/
theorem prun_incRun_id (msz : Nat) (run : List Char)
    (hall : run.all (fun c => c = '+' || c = '-') = true)
    (hnet : incNet run % 256 = 0) (fs : List PFrame) (segs : List (List Op × Block))
    (cur : List Op) (hwf : opsWF msz cur = true) :
    prun msz ⟨fs, segs, cur⟩ run = .ok ⟨fs, segs, cur⟩ := by
  have hop : run.all isOpChar = true := by
    rw [List.all_eq_true] at hall ⊢
    intro c hc
    have := hall c hc
    rw [Bool.or_eq_true, decide_eq_true_eq, decide_eq_true_eq] at this
    rcases this with h | h <;> subst h <;> rfl
  rw [prun_opRun msz run hop fs segs cur]
  rcases curSplitInc msz cur hwf with hlast | ⟨pre, v, hcur, hpre, hv0, hv1⟩
  · rw [(foldIncChars msz run hall).1 cur hlast, if_pos hnet]
  · subst hcur
    rw [(foldIncChars msz run hall).2 pre v hpre hv0 hv1]
    have hmod : (v + incNet run) % 256 = v := by
      rw [Nat.add_mod, hnet, Nat.add_zero, Nat.mod_mod, Nat.mod_eq_of_lt hv1]
    rw [hmod, if_neg (by omega)]

/-- Folding a zero-net run of `<`/`>` characters over a well-formed current
operation list leaves the builder state unchanged. -/
theorem prun_shiftRun_id (msz : Nat) (h2 : 2 ≤ msz) (hms : 2 * msz ≤ 65536)
    (run : List Char) (hall : run.all (fun c => c = '<' || c = '>') = true)
    (hnet : shiftNet msz run % msz = 0) (fs : List PFrame)
    (segs : List (List Op × Block)) (cur : List Op) (hwf : opsWF msz cur = true) :
    prun msz ⟨fs, segs, cur⟩ run = .ok ⟨fs, segs, cur⟩ := by
  have hop : run.all isOpChar = true := by
    rw [List.all_eq_true] at hall ⊢
    intro c hc
    have := hall c hc
    rw [Bool.or_eq_true, decide_eq_true_eq, decide_eq_true_eq] at this
    rcases this with h | h <;> subst h <;> rfl
  rw [prun_opRun msz run hop fs segs cur]
  rcases curSplitShift msz cur hwf with hlast | ⟨pre, v, hcur, hpre, hv0, hv1⟩
  · rw [(foldShiftChars msz h2 hms run hall).1 cur hlast, if_pos hnet]
  · subst hcur
    rw [(foldShiftChars msz h2 hms run hall).2 pre v hpre hv0 hv1]
    have hmod : (v + shiftNet msz run) % msz = v := by
      rw [Nat.add_mod, hnet, Nat.add_zero, Nat.mod_mod, Nat.mod_eq_of_lt hv1]
    rw [hmod, if_neg (by omega)]

/-! ## The builder invariant -/

/-- All finished segments of a level carry well-formed operation lists and
well-formed (exit-pending) header chains. -/
def SegsWF (msz : Nat) (segs : List (List Op × Block)) : Prop :=
  ∀ p ∈ segs, opsWF msz p.1 = true ∧ ChainWF msz p.2

/-- The builder state invariant. -/
def StWF (msz : Nat) (st : PState) : Prop :=
  opsWF msz st.cur = true ∧ SegsWF msz st.segs ∧
    ∀ f ∈ st.stack, opsWF msz f.cur = true ∧ SegsWF msz f.segs

/-- `block_append_op` preserves well-formedness of the operation list when
the incoming operation is itself in range. -/
theorem block_append_op_wf (msz : Nat) (cur : List Op) (op : Op)
    (hwf : opsWF msz cur = true) (hop : opOK msz op = true) :
    opsWF msz (block_append_op msz cur op) = true := by
  rcases List.eq_nil_or_concat cur with hc | ⟨xs, a, hc⟩ <;> subst hc
  · simp [opsWF, block_append_op, List.all_cons, chainOK, hop]
  · rw [List.concat_eq_append] at hwf ⊢
    rw [block_append_op_concat]
    rw [opsWF_concat] at hwf
    obtain ⟨hxs, ha, hlast⟩ := hwf
    have hfall : noTwin a op = true → opsWF msz (xs ++ [a, op]) = true := by
      intro hnt
      have : xs ++ [a, op] = (xs ++ [a]) ++ [op] := by simp
      rw [this, opsWF_concat]
      refine ⟨(opsWF_concat msz xs a).mpr ⟨hxs, ha, hlast⟩, hop, ?_⟩
      have : (xs ++ [a]).getLast? = some a := by simp
      rw [this]
      exact hnt
    cases a with
    | inc v =>
      cases op with
      | inc d =>
        rw [appendLast]
        by_cases hz : u8add v d = 0
        · rw [if_pos hz, List.append_nil]
          exact hxs
        · rw [if_neg hz, opsWF_concat]
          refine ⟨hxs, ?_, ?_⟩
          · have : u8add v d < 256 := Nat.mod_lt _ (by omega)
            simp [opOK, Nat.pos_of_ne_zero hz, this]
          · cases hxl : xs.getLast? with
            | none => trivial
            | some x =>
              rw [hxl] at hlast
              have hlast' : noTwin x (Op.inc v) = true := hlast
              show noTwin x (Op.inc (u8add v d)) = true
              rw [← noTwin_inc_congr x v (u8add v d)]
              exact hlast'
      | shift d => exact hfall rfl
      | read => exact hfall rfl
      | write => exact hfall rfl
    | shift s =>
      cases op with
      | shift t =>
        rw [appendLast]
        have hmszpos : 0 < msz := by
          rw [opOK, Bool.and_eq_true, decide_eq_true_eq, decide_eq_true_eq] at ha
          omega
        by_cases hz : u16add s t % msz = 0
        · rw [if_pos hz, List.append_nil]
          exact hxs
        · rw [if_neg hz, opsWF_concat]
          refine ⟨hxs, ?_, ?_⟩
          · have : u16add s t % msz < msz := Nat.mod_lt _ hmszpos
            simp [opOK, Nat.pos_of_ne_zero hz, this]
          · cases hxl : xs.getLast? with
            | none => trivial
            | some x =>
              rw [hxl] at hlast
              have hlast' : noTwin x (Op.shift s) = true := hlast
              show noTwin x (Op.shift (u16add s t % msz)) = true
              rw [← noTwin_shift_congr x s (u16add s t % msz)]
              exact hlast'
      | inc d => exact hfall rfl
      | read => exact hfall rfl
      | write => exact hfall rfl
    | read => cases op <;> exact hfall rfl
    | write => cases op <;> exact hfall rfl

theorem setExit_head (msz : Nat) (c e : Block) (hc : ChainWF msz c)
    (he : ChainWF msz e) : HeadWF msz (setExit c e) := by
  cases hc with
  | last ops hops => exact HeadWF.last ops e hops he
  | seg ops h hops hh => exact HeadWF.seg ops h e hops hh he

theorem assemble_wf (msz : Nat) :
    ∀ (segs : List (List Op × Block)) (last : Block), SegsWF msz segs →
      ChainWF msz last → ChainWF msz (assemble segs last) := by
  intro segs
  induction segs with
  | nil => intro last _ hl; exact hl
  | cons p rest ih =>
    intro last hs hl
    obtain ⟨o, hdr⟩ := p
    have hp := hs (o, hdr) (List.mem_cons_self _ _)
    refine ih _ (fun q hq => hs q (List.mem_cons_of_mem _ hq)) ?_
    exact ChainWF.seg o _ hp.1 (setExit_head msz hdr last hp.2 hl)

theorem charClassify (c : Char) :
    isOpChar c = true ∨ c = '[' ∨ c = ']' ∨ isBfChar c = false := by
  cases hb : isBfChar c
  · right; right; right; rfl
  · simp only [isBfChar, Bool.or_eq_true, decide_eq_true_eq] at hb
    rcases hb with (((((((h | h) | h) | h) | h) | h) | h) | h) <;> subst h
    · exact Or.inl rfl
    · exact Or.inl rfl
    · exact Or.inl rfl
    · exact Or.inl rfl
    · exact Or.inl rfl
    · exact Or.inl rfl
    · exact Or.inr (Or.inl rfl)
    · exact Or.inr (Or.inr (Or.inl rfl))

theorem charOpOK (msz : Nat) (h2 : 2 ≤ msz) (c : Char) (h : isOpChar c = true) :
    opOK msz (charOp msz c) = true := by
  simp only [isOpChar, Bool.or_eq_true, decide_eq_true_eq] at h
  rcases h with ((((h | h) | h) | h) | h) | h <;> subst h <;>
    simp [charOp, opOK] <;> omega

theorem pstep_open (msz : Nat) (st : PState) :
    pstep msz st '[' = .ok ⟨⟨st.segs, st.cur⟩ :: st.stack, [], []⟩ := rfl

theorem pstep_close (msz : Nat) (st : PState) :
    pstep msz st ']' =
      match st.stack with
      | [] => .error .unmatchedClose
      | f :: rest =>
        .ok ⟨rest, (f.cur, assemble st.segs (Block.mk st.cur none none)) :: f.segs, []⟩ := rfl

theorem pstep_wf (msz : Nat) (h2 : 2 ≤ msz) (st : PState) (c : Char)
    (hst : StWF msz st) : ∀ st', pstep msz st c = .ok st' → StWF msz st' := by
  obtain ⟨hcur, hsegs, hstack⟩ := hst
  rcases charClassify c with hc | hc | hc | hc
  · rw [pstep_op msz st c hc]
    intro st' h
    cases h
    exact ⟨block_append_op_wf msz st.cur _ hcur (charOpOK msz h2 c hc), hsegs, hstack⟩
  · subst hc
    rw [pstep_open]
    intro st' h
    cases h
    refine ⟨rfl, fun p hp => absurd hp (List.not_mem_nil p), ?_⟩
    intro f hf
    rcases List.mem_cons.mp hf with hf | hf
    · subst hf; exact ⟨hcur, hsegs⟩
    · exact hstack f hf
  · subst hc
    rw [pstep_close]
    intro st' h
    cases hstk : st.stack with
    | nil => rw [hstk] at h; cases h
    | cons f rest =>
      rw [hstk] at h
      cases h
      have hf := hstack f (by rw [hstk]; exact List.mem_cons_self f rest)
      refine ⟨rfl, ?_, fun g hg => hstack g (by rw [hstk]; exact List.mem_cons_of_mem f hg)⟩
      intro p hp
      rcases List.mem_cons.mp hp with hp | hp
      · subst hp
        exact ⟨hf.1, assemble_wf msz st.segs _ hsegs (ChainWF.last st.cur hcur)⟩
      · exact hf.2 p hp
  · rw [pstep_comment msz st c hc]
    intro st' h
    cases h
    exact ⟨hcur, hsegs, hstack⟩

theorem prun_wf (msz : Nat) (h2 : 2 ≤ msz) :
    ∀ (cs : List Char) (st st' : PState), StWF msz st →
      prun msz st cs = .ok st' → StWF msz st' := by
  intro cs
  induction cs with
  | nil =>
    intro st st' hst h
    cases h
    exact hst
  | cons c cs ih =>
    intro st st' hst h
    rw [prun] at h
    cases hps : pstep msz st c with
    | error e => rw [hps] at h; cases h
    | ok st₁ =>
      rw [hps] at h
      exact ih st₁ st' (pstep_wf msz h2 st c hst st₁ hps) h

/-- The builder invariant: every program `parse` returns is a well-formed
chain. -/
theorem parse_wf (msz : Nat) (h2 : 2 ≤ msz) (src : List Char) (b : Block)
    (h : parseChars msz src = .ok b) : ChainWF msz b := by
  unfold parseChars at h
  cases hr : prun msz ⟨[], [], []⟩ src with
  | error e => rw [hr] at h; cases h
  | ok st =>
    rw [hr] at h
    have hst : StWF msz st := by
      refine prun_wf msz h2 src _ st ?_ hr
      exact ⟨rfl, fun p hp => absurd hp (List.not_mem_nil p),
        fun f hf => absurd hf (List.not_mem_nil f)⟩
    have h' : (match st.stack with
      | [] => Except.ok (assemble st.segs (Block.mk st.cur none none))
      | _ :: _ => Except.error ParseErr.unmatchedOpen) = Except.ok b := h
    cases hstk : st.stack with
    | nil =>
      rw [hstk] at h'
      cases h'
      exact assemble_wf msz st.segs _ hst.2.1 (ChainWF.last st.cur hst.1)
    | cons f rest => rw [hstk] at h'; cases h'

/-- Every block of a well-formed program carries a well-formed operation
list. -/
theorem wf_preorder (msz : Nat) :
    ∀ (n : Nat) (b : Block), b.size ≤ n → (ChainWF msz b ∨ HeadWF msz b) →
      ∀ blk ∈ preorder b, opsWF msz blk.ops = true := by
  intro n
  induction n with
  | zero =>
    intro b hb _
    exact absurd hb (by have := b.size_pos; omega)
  | succ n ih =>
    intro b hb hwf blk hblk
    rcases hwf with hwf | hwf
    · cases hwf with
      | last ops hops =>
        simp only [preorder, List.mem_singleton] at hblk
        subst hblk
        exact hops
      | seg ops h hops hh =>
        simp only [preorder, List.mem_cons] at hblk
        rcases hblk with hblk | hblk
        · subst hblk; exact hops
        · have hsz : h.size ≤ n := by
            have : Block.size (.mk ops (some h) none) = 1 + h.size := by simp [Block.size]
            omega
          exact ih h hsz (Or.inr hh) blk hblk
    · cases hwf with
      | last ops e hops he =>
        simp only [preorder, List.mem_cons] at hblk
        rcases hblk with hblk | hblk
        · subst hblk; exact hops
        · have hsz : e.size ≤ n := by
            have : Block.size (.mk ops none (some e)) = 1 + e.size := by simp [Block.size]
            omega
          exact ih e hsz (Or.inl he) blk hblk
      | seg ops h e hops hh he =>
        simp only [preorder, List.mem_cons, List.mem_append] at hblk
        have hsz : Block.size (.mk ops (some h) (some e)) = 1 + h.size + e.size := by
          simp [Block.size]
        rcases hblk with hblk | hblk | hblk
        · subst hblk; exact hops
        · exact ih h (by omega) (Or.inr hh) blk hblk
        · exact ih e (by omega) (Or.inl he) blk hblk

/-! ## Relating the builder's success and error kinds to the bracket scan -/

theorem opChar_brackets (c : Char) (h : isOpChar c = true) : c ≠ '[' ∧ c ≠ ']' := by
  simp only [isOpChar, Bool.or_eq_true, decide_eq_true_eq] at h
  rcases h with ((((h | h) | h) | h) | h) | h <;> subst h <;> exact ⟨by decide, by decide⟩

theorem comment_brackets (c : Char) (h : isBfChar c = false) : c ≠ '[' ∧ c ≠ ']' := by
  simp only [isBfChar, Bool.or_eq_false_iff, decide_eq_false_iff_not] at h
  exact ⟨h.1.2, h.2⟩

theorem prun_spec (msz : Nat) : ∀ (cs : List Char) (st : PState),
    (match prun msz st cs with
     | .error e => some e
     | .ok st' =>
       match st'.stack with
       | [] => none
       | _ :: _ => some ParseErr.unmatchedOpen)
      = specBracketScan cs st.stack.length := by
  intro cs
  induction cs with
  | nil =>
    intro st
    cases hstk : st.stack with
    | nil => simp [prun, hstk, specBracketScan]
    | cons f r => simp [prun, hstk, specBracketScan]
  | cons c cs ih =>
    intro st
    rcases charClassify c with hc | hc | hc | hc
    · obtain ⟨hb1, hb2⟩ := opChar_brackets c hc
      rw [show specBracketScan (c :: cs) st.stack.length
          = specBracketScan cs st.stack.length from by
        simp [specBracketScan, hb1, hb2]]
      simp only [prun, pstep_op msz st c hc]
      exact ih ⟨st.stack, st.segs, block_append_op msz st.cur (charOp msz c)⟩
    · subst hc
      rw [show specBracketScan ('[' :: cs) st.stack.length
          = specBracketScan cs (st.stack.length + 1) from by simp [specBracketScan]]
      simp only [prun, pstep_open]
      have := ih ⟨⟨st.segs, st.cur⟩ :: st.stack, [], []⟩
      simpa using this
    · subst hc
      simp only [prun, pstep_close]
      cases hstk : st.stack with
      | nil =>
        simp [specBracketScan, hstk]
      | cons f rest =>
        rw [show specBracketScan (']' :: cs) (f :: rest).length
            = specBracketScan cs rest.length from by simp [specBracketScan]]
        have := ih ⟨rest, (f.cur, assemble st.segs (Block.mk st.cur none none)) :: f.segs, []⟩
        simpa using this
    · obtain ⟨hb1, hb2⟩ := comment_brackets c hc
      rw [show specBracketScan (c :: cs) st.stack.length
          = specBracketScan cs st.stack.length from by
        simp [specBracketScan, hb1, hb2]]
      simp only [prun, pstep_comment msz st c hc]
      exact ih st

theorem parseChars_spec (msz : Nat) (cs : List Char) :
    (match parseChars msz cs with
     | .error e => some e
     | .ok _ => none) = specBracketScan cs 0 := by
  have h := prun_spec msz cs ⟨[], [], []⟩
  unfold parseChars
  cases hr : prun msz ⟨[], [], []⟩ cs with
  | error e => rw [hr] at h; simpa using h
  | ok st =>
    rw [hr] at h
    cases hstk : st.stack with
    | nil => simpa [hstk] using h
    | cons f rest => simpa [hstk] using h

/-! ## The emitter's traversal -/

theorem size_mk_nn (o : List Op) : (Block.mk o none none).size = 1 := rfl

theorem size_mk_sn (o : List Op) (n : Block) :
    (Block.mk o (some n) none).size = 1 + n.size := rfl

theorem size_mk_ns (o : List Op) (e : Block) :
    (Block.mk o none (some e)).size = 1 + e.size := rfl

theorem size_mk_ss (o : List Op) (n e : Block) :
    (Block.mk o (some n) (some e)).size = 1 + n.size + e.size := rfl

theorem stackMes_cons (h e : Block) (rest : List (Block × Block)) :
    stackMes ((h, e) :: rest) = e.size + stackMes rest := rfl

/-- The traversal never reaches the fuel cutoff: with at least `Mw b st`
fuel, the result does not depend on the exact fuel. -/
theorem walk_fuel (msz : Nat) (tgt : Target) (lbl : Block → String) :
    ∀ (fuel fuel₂ : Nat) (b : Block) (st : List (Block × Block)) (layer : Nat),
      Mw b st ≤ fuel → Mw b st ≤ fuel₂ →
      walk msz tgt lbl fuel b st layer = walk msz tgt lbl fuel₂ b st layer := by
  intro fuel
  induction fuel with
  | zero =>
    intro fuel₂ b st layer h1 _
    exact absurd h1 (by have := b.size_pos; unfold Mw; omega)
  | succ f ih =>
    intro fuel₂ b st layer h1 h2
    match fuel₂ with
    | 0 =>
      exact absurd h2 (by have := b.size_pos; unfold Mw; omega)
    | g + 1 =>
      obtain ⟨ops, next, exit⟩ := b
      cases next with
      | some n =>
        cases exit with
        | none =>
          simp only [walk]
          rw [ih g n st layer
            (by unfold Mw at h1 ⊢; rw [size_mk_sn] at h1; omega)
            (by unfold Mw at h2 ⊢; rw [size_mk_sn] at h2; omega)]
        | some e =>
          simp only [walk]
          rw [ih g n ((Block.mk ops (some n) (some e), e) :: st) (layer + 1)
            (by unfold Mw at h1 ⊢; rw [size_mk_ss] at h1; rw [stackMes_cons]; omega)
            (by unfold Mw at h2 ⊢; rw [size_mk_ss] at h2; rw [stackMes_cons]; omega)]
      | none =>
        cases exit with
        | some e =>
          simp only [walk]
          rw [ih g e st layer
            (by unfold Mw at h1 ⊢; rw [size_mk_ns] at h1; omega)
            (by unfold Mw at h2 ⊢; rw [size_mk_ns] at h2; omega)]
        | none =>
          cases st with
          | nil => simp [walk]
          | cons p rest =>
            obtain ⟨h, e⟩ := p
            simp only [walk]
            rw [ih g e rest (layer - 1)
              (by unfold Mw at h1 ⊢; rw [size_mk_nn] at h1; rw [stackMes_cons] at h1; omega)
              (by unfold Mw at h2 ⊢; rw [size_mk_nn] at h2; rw [stackMes_cons] at h2; omega)]

/-- The blocks the stacked `exit` continuations will contribute to the visit
trace. -/
def stackPre : List (Block × Block) → List Block
  | [] => []
  | (_, e) :: rest => preorder e ++ stackPre rest

/-- The traversal visits exactly the pre-order enumeration of the current
subtree followed by the stacked continuations. -/
theorem walk_visited (msz : Nat) (tgt : Target) (lbl : Block → String) :
    ∀ (fuel : Nat) (b : Block) (st : List (Block × Block)) (layer : Nat),
      Mw b st ≤ fuel →
      (walk msz tgt lbl fuel b st layer).visited = preorder b ++ stackPre st := by
  intro fuel
  induction fuel with
  | zero =>
    intro b st layer h1
    exact absurd h1 (by have := b.size_pos; unfold Mw; omega)
  | succ f ih =>
    intro b st layer h1
    obtain ⟨ops, next, exit⟩ := b
    cases next with
    | some n =>
      cases exit with
      | none =>
        simp only [walk, preorder]
        rw [ih n st layer (by unfold Mw at h1 ⊢; rw [size_mk_sn] at h1; omega)]
        simp
      | some e =>
        simp only [walk, preorder]
        rw [ih n ((Block.mk ops (some n) (some e), e) :: st) (layer + 1)
          (by unfold Mw at h1 ⊢; rw [size_mk_ss] at h1; rw [stackMes_cons]; omega)]
        simp [stackPre]
    | none =>
      cases exit with
      | some e =>
        simp only [walk, preorder]
        rw [ih e st layer (by unfold Mw at h1 ⊢; rw [size_mk_ns] at h1; omega)]
        simp
      | none =>
        cases st with
        | nil => simp [walk, preorder, stackPre]
        | cons p rest =>
          obtain ⟨h, e⟩ := p
          simp only [walk, preorder, stackPre]
          rw [ih e rest (layer - 1)
            (by unfold Mw at h1 ⊢; rw [size_mk_nn] at h1; rw [stackMes_cons] at h1; omega)]
          simp

/-- The nesting-depth counter tracks the open-loop stack: started in sync it
ends at `layer - |st|`, in particular at `0` from the initial state. -/
theorem walk_layerEnd (msz : Nat) (tgt : Target) (lbl : Block → String) :
    ∀ (fuel : Nat) (b : Block) (st : List (Block × Block)) (layer : Nat),
      Mw b st ≤ fuel → st.length ≤ layer →
      (walk msz tgt lbl fuel b st layer).layerEnd = layer - st.length := by
  intro fuel
  induction fuel with
  | zero =>
    intro b st layer h1 _
    exact absurd h1 (by have := b.size_pos; unfold Mw; omega)
  | succ f ih =>
    intro b st layer h1 hlen
    obtain ⟨ops, next, exit⟩ := b
    cases next with
    | some n =>
      cases exit with
      | none =>
        simp only [walk]
        rw [ih n st layer (by unfold Mw at h1 ⊢; rw [size_mk_sn] at h1; omega) hlen]
      | some e =>
        simp only [walk]
        rw [ih n ((Block.mk ops (some n) (some e), e) :: st) (layer + 1)
          (by unfold Mw at h1 ⊢; rw [size_mk_ss] at h1; rw [stackMes_cons]; omega)
          (by simp; omega)]
        simp
    | none =>
      cases exit with
      | some e =>
        simp only [walk]
        rw [ih e st layer (by unfold Mw at h1 ⊢; rw [size_mk_ns] at h1; omega) hlen]
      | none =>
        cases st with
        | nil => simp [walk]
        | cons p rest =>
          obtain ⟨h, e⟩ := p
          simp only [walk]
          rw [ih e rest (layer - 1)
            (by unfold Mw at h1 ⊢; rw [size_mk_nn] at h1; rw [stackMes_cons] at h1; omega)
            (by simp at hlen ⊢; omega)]
          simp at hlen ⊢
          omega

theorem joinChunks_append (a b : List String) :
    joinChunks (a ++ b) = joinChunks a ++ joinChunks b := by
  induction a with
  | nil => rfl
  | cons s rest ih => simp [joinChunks, ih]

theorem joinChunks_opsChunks (msz : Nat) :
    ∀ (ops : List Op) (layer : Nat),
      joinChunks (opsChunks msz .bf ops layer) = opsChars msz ops layer := by
  intro ops
  induction ops with
  | nil => intro layer; rfl
  | cons op rest ih =>
    intro layer
    simp only [opsChunks, opsChars, joinChunks_append, ih]
    rfl

/-- The BF-target chunks of the traversal flatten to the structural
rendering. -/
theorem walk_chunksBF (msz : Nat) (lbl : Block → String) :
    ∀ (fuel : Nat) (b : Block) (st : List (Block × Block)) (layer : Nat),
      Mw b st ≤ fuel →
      joinChunks ((walk msz .bf lbl fuel b st layer).chunks)
        = renderBlock msz b layer ++ popsRender msz st layer := by
  intro fuel
  induction fuel with
  | zero =>
    intro b st layer h1
    exact absurd h1 (by have := b.size_pos; unfold Mw; omega)
  | succ f ih =>
    intro b st layer h1
    obtain ⟨ops, next, exit⟩ := b
    cases next with
    | some n =>
      cases exit with
      | none =>
        simp only [walk, renderBlock, joinChunks_append, joinChunks_opsChunks]
        rw [ih n st layer (by unfold Mw at h1 ⊢; rw [size_mk_sn] at h1; omega)]
        simp [List.append_assoc]
      | some e =>
        simp only [walk, renderBlock, joinChunks_append, joinChunks_opsChunks,
          emit_loop_head]
        rw [ih n ((Block.mk ops (some n) (some e), e) :: st) (layer + 1)
          (by unfold Mw at h1 ⊢; rw [size_mk_ss] at h1; rw [stackMes_cons]; omega)]
        simp [popsRender, joinChunks_append, joinChunks, List.append_assoc]
    | none =>
      cases exit with
      | some e =>
        simp only [walk, renderBlock, joinChunks_append, joinChunks_opsChunks,
          emit_loop_head, emit_loop_tail]
        rw [ih e st layer (by unfold Mw at h1 ⊢; rw [size_mk_ns] at h1; omega)]
        simp [joinChunks_append, joinChunks, List.append_assoc]
      | none =>
        cases st with
        | nil => simp [walk, renderBlock, joinChunks_opsChunks, popsRender]
        | cons p rest =>
          obtain ⟨h, e⟩ := p
          simp only [walk, renderBlock, joinChunks_append, joinChunks_opsChunks,
            emit_loop_tail, popsRender]
          rw [ih e rest (layer - 1)
            (by unfold Mw at h1 ⊢; rw [size_mk_nn] at h1; rw [stackMes_cons] at h1; omega)]
          simp [joinChunks_append, joinChunks, List.append_assoc]

/-! ## The sink model -/

theorem strExt (a b : String) (h : a.data = b.data) : a = b := by
  cases a; cases b
  exact congrArg String.mk (by simpa using h)

theorem strConcat_data : ∀ (L : List String), (strConcat L).data = joinChunks L := by
  intro L
  induction L with
  | nil => rfl
  | cons s rest ih => simp [strConcat, joinChunks, String.data_append, ih]

/-- Running a chunk list against a sink: every chunk is written while the
sink accepts writes; the first failing write aborts with the text written so
far left in the sink. -/
theorem feed_spec : ∀ (L : List String) (out : String) (fuel : Nat),
    feed ⟨out, fuel⟩ L =
      if L.length ≤ fuel then .ok ⟨out ++ strConcat L, fuel - L.length⟩
      else .error ⟨out ++ strConcat (L.take fuel), 0⟩ := by
  intro L
  induction L with
  | nil =>
    intro out fuel
    simp [feed, strConcat, String.append_empty]
  | cons c rest ih =>
    intro out fuel
    cases fuel with
    | zero =>
      simp [feed, wr, strConcat, String.append_empty]
    | succ fu =>
      simp only [feed, wr, ih (out ++ c) fu, strConcat, List.take_succ_cons,
        List.length_cons]
      by_cases hle : rest.length ≤ fu
      · rw [if_pos hle, if_pos (by omega)]
        simp [String.append_assoc]
      · rw [if_neg hle, if_neg (by omega)]
        simp [strConcat, String.append_assoc]

/-! ## Re-parsing the normalized-source output -/

theorem prun_seq (msz : Nat) {a b : List Char} {st st₁ : PState}
    {r : Except ParseErr PState} (h1 : prun msz st a = .ok st₁)
    (h2 : prun msz st₁ b = r) : prun msz st (a ++ b) = r := by
  rw [prun_append, h1]
  exact h2

theorem joinChunks_replicate_one (k : Nat) (c : Char) (s : String) (h : s.data = [c]) :
    joinChunks (List.replicate k s) = List.replicate k c := by
  induction k with
  | zero => rfl
  | succ k ih => simp [List.replicate_succ, joinChunks, h, ih]

theorem all_replicate (k : Nat) (c : Char) (p : Char → Bool) (h : p c = true) :
    (List.replicate k c).all p = true := by
  induction k with
  | zero => rfl
  | succ k ih => simp [List.replicate_succ, h, ih]

theorem tab_comment (layer : Nat) :
    (joinChunks (print_tab layer)).all (fun c => !isBfChar c) = true := by
  induction layer with
  | zero => rfl
  | succ l ih =>
    simp only [print_tab, List.replicate_succ, joinChunks]
    rw [List.all_append]
    refine (Bool.and_eq_true _ _).mpr ⟨by decide, ?_⟩
    simpa [print_tab] using ih

theorem prun_tab (msz : Nat) (st : PState) (layer : Nat) :
    prun msz st (joinChunks (print_tab layer)) = .ok st :=
  prun_comments msz _ st (tab_comment layer)

theorem prun_newline (msz : Nat) (st : PState) :
    prun msz st ['\n'] = .ok st :=
  prun_comments msz _ st (by decide)

theorem incNet_replicate_plus (k : Nat) : incNet (List.replicate k '+') = k := by
  induction k with
  | zero => rfl
  | succ k ih => simp [List.replicate_succ, incNet, ih]; omega

theorem incNet_replicate_minus (k : Nat) : incNet (List.replicate k '-') = 255 * k := by
  induction k with
  | zero => rfl
  | succ k ih => simp [List.replicate_succ, incNet, ih]; ring

theorem shiftNet_replicate_fwd (msz k : Nat) :
    shiftNet msz (List.replicate k '>') = k := by
  induction k with
  | zero => rfl
  | succ k ih => simp [List.replicate_succ, shiftNet, ih]; omega

theorem shiftNet_replicate_bwd (msz k : Nat) :
    shiftNet msz (List.replicate k '<') = (msz - 1) * k := by
  induction k with
  | zero => rfl
  | succ k ih => simp [List.replicate_succ, shiftNet, ih]; ring

/-- Feeding one rendered BF operation line back into the builder appends
exactly that operation to the current block. -/
theorem renderOp_feed (msz : Nat) (hms : 2 * msz ≤ 65536) (op : Op)
    (hop : opOK msz op = true)
    (fs : List PFrame) (segs : List (List Op × Block)) (cur : List Op) (layer : Nat)
    (hchain : chainOK (cur ++ [op]) = true) :
    prun msz ⟨fs, segs, cur⟩ (renderOp msz op layer) = .ok ⟨fs, segs, cur ++ [op]⟩ := by
  cases op with
  | inc v =>
    rw [opOK, Bool.and_eq_true, decide_eq_true_eq, decide_eq_true_eq] at hop
    have hlast := lastTagIsNot_of_chainOK_inc cur v hchain
    by_cases hv : v > 127
    · have hcount : inc_signed_count v = (v : Int) - 256 := if_pos hv
      have hchars : renderOp msz (.inc v) layer
          = joinChunks (print_tab layer) ++ (List.replicate (256 - v) '-' ++ ['\n']) := by
        unfold renderOp emit_op emit_op_inc
        rw [joinChunks_append, joinChunks_append, joinChunks_append]
        rw [joinChunks_replicate_one _ '+' "+" rfl, joinChunks_replicate_one _ '-' "-" rfl]
        rw [hcount, show ((v : Int) - 256).toNat = 0 from by omega,
          show (-((v : Int) - 256)).toNat = 256 - v from by omega]
        simp [joinChunks]
      rw [hchars]
      refine prun_seq msz (prun_tab msz _ layer) ?_
      refine prun_seq msz ?_ (prun_newline msz _)
      have hall : (List.replicate (256 - v) '-').all (fun c => c = '-' || c = '+') = true :=
        all_replicate _ _ _ (by decide)
      have hall' : (List.replicate (256 - v) '-').all (fun c => c = '+' || c = '-') = true :=
        all_replicate _ _ _ (by decide)
      have hiop : (List.replicate (256 - v) '-').all isOpChar = true :=
        all_replicate _ _ _ (by decide)
      rw [prun_opRun msz _ hiop fs segs cur]
      rw [(foldIncChars msz _ hall').1 cur hlast]
      rw [incNet_replicate_minus]
      rw [show (255 : Nat) = 256 - 1 from rfl, mod_neg_one_mul 256 (256 - v) (by omega) (by omega)]
      rw [show 256 - (256 - v) = v from by omega, if_neg (by omega)]
    · have hcount : inc_signed_count v = (v : Int) := if_neg hv
      have hchars : renderOp msz (.inc v) layer
          = joinChunks (print_tab layer) ++ (List.replicate v '+' ++ ['\n']) := by
        unfold renderOp emit_op emit_op_inc
        rw [joinChunks_append, joinChunks_append, joinChunks_append]
        rw [joinChunks_replicate_one _ '+' "+" rfl, joinChunks_replicate_one _ '-' "-" rfl]
        rw [hcount, show ((v : Int)).toNat = v from by omega,
          show (-(v : Int)).toNat = 0 from by omega]
        simp [joinChunks]
      rw [hchars]
      refine prun_seq msz (prun_tab msz _ layer) ?_
      refine prun_seq msz ?_ (prun_newline msz _)
      have hall' : (List.replicate v '+').all (fun c => c = '+' || c = '-') = true :=
        all_replicate _ _ _ (by decide)
      have hiop : (List.replicate v '+').all isOpChar = true :=
        all_replicate _ _ _ (by decide)
      rw [prun_opRun msz _ hiop fs segs cur]
      rw [(foldIncChars msz _ hall').1 cur hlast]
      rw [incNet_replicate_plus, Nat.mod_eq_of_lt (by omega), if_neg (by omega)]
  | shift s =>
    rw [opOK, Bool.and_eq_true, decide_eq_true_eq, decide_eq_true_eq] at hop
    have h2 : 2 ≤ msz := by omega
    have hms' : 0 < msz := by omega
    have hlast := lastTagIsNot_of_chainOK_shift cur s hchain
    by_cases hs : s > msz / 2
    · have hcount : shift_signed_count msz s = (s : Int) - (msz : Int) := if_pos hs
      have hchars : renderOp msz (.shift s) layer
          = joinChunks (print_tab layer) ++ (List.replicate (msz - s) '<' ++ ['\n']) := by
        unfold renderOp emit_op emit_op_shift
        rw [joinChunks_append, joinChunks_append, joinChunks_append]
        rw [joinChunks_replicate_one _ '>' ">" rfl, joinChunks_replicate_one _ '<' "<" rfl]
        rw [hcount, show ((s : Int) - (msz : Int)).toNat = 0 from by omega,
          show (-((s : Int) - (msz : Int))).toNat = msz - s from by omega]
        simp [joinChunks]
      rw [hchars]
      refine prun_seq msz (prun_tab msz _ layer) ?_
      refine prun_seq msz ?_ (prun_newline msz _)
      have hall' : (List.replicate (msz - s) '<').all (fun c => c = '<' || c = '>') = true :=
        all_replicate _ _ _ (by decide)
      have hiop : (List.replicate (msz - s) '<').all isOpChar = true :=
        all_replicate _ _ _ (by decide)
      rw [prun_opRun msz _ hiop fs segs cur]
      rw [(foldShiftChars msz h2 hms _ hall').1 cur hlast]
      rw [shiftNet_replicate_bwd]
      rw [mod_neg_one_mul msz (msz - s) (by omega) (by omega)]
      rw [show msz - (msz - s) = s from by omega, if_neg (by omega)]
    · have hcount : shift_signed_count msz s = (s : Int) := if_neg hs
      have hchars : renderOp msz (.shift s) layer
          = joinChunks (print_tab layer) ++ (List.replicate s '>' ++ ['\n']) := by
        unfold renderOp emit_op emit_op_shift
        rw [joinChunks_append, joinChunks_append, joinChunks_append]
        rw [joinChunks_replicate_one _ '>' ">" rfl, joinChunks_replicate_one _ '<' "<" rfl]
        rw [hcount, show ((s : Int)).toNat = s from by omega,
          show (-(s : Int)).toNat = 0 from by omega]
        simp [joinChunks]
      rw [hchars]
      refine prun_seq msz (prun_tab msz _ layer) ?_
      refine prun_seq msz ?_ (prun_newline msz _)
      have hall' : (List.replicate s '>').all (fun c => c = '<' || c = '>') = true :=
        all_replicate _ _ _ (by decide)
      have hiop : (List.replicate s '>').all isOpChar = true :=
        all_replicate _ _ _ (by decide)
      rw [prun_opRun msz _ hiop fs segs cur]
      rw [(foldShiftChars msz h2 hms _ hall').1 cur hlast]
      rw [shiftNet_replicate_fwd, Nat.mod_eq_of_lt (by omega), if_neg (by omega)]
  | read =>
    have hchars : renderOp msz .read layer
        = joinChunks (print_tab layer) ++ ([','] ++ ['\n']) := by
      unfold renderOp emit_op emit_op_read
      rw [joinChunks_append]
      rfl
    rw [hchars]
    refine prun_seq msz (prun_tab msz _ layer) ?_
    refine prun_seq msz ?_ (prun_newline msz _)
    show prun msz ⟨fs, segs, cur⟩ [','] = _
    simp only [prun, pstep_op msz ⟨fs, segs, cur⟩ ',' (by decide)]
    rw [show charOp msz ',' = Op.read from rfl, block_append_op_read]
  | write =>
    have hchars : renderOp msz .write layer
        = joinChunks (print_tab layer) ++ (['.'] ++ ['\n']) := by
      unfold renderOp emit_op emit_op_write
      rw [joinChunks_append]
      rfl
    rw [hchars]
    refine prun_seq msz (prun_tab msz _ layer) ?_
    refine prun_seq msz ?_ (prun_newline msz _)
    show prun msz ⟨fs, segs, cur⟩ ['.'] = _
    simp only [prun, pstep_op msz ⟨fs, segs, cur⟩ '.' (by decide)]
    rw [show charOp msz '.' = Op.write from rfl, block_append_op_write]

theorem chainOK_take : ∀ (cur : List Op) (op : Op) (rest : List Op),
    chainOK (cur ++ op :: rest) = true → chainOK (cur ++ [op]) = true
  | [], _, _, _ => rfl
  | [x], op, rest, h => by
    simp only [List.cons_append, List.nil_append, chainOK, Bool.and_eq_true] at h ⊢
    exact ⟨h.1, trivial⟩
  | x :: y :: cur, op, rest, h => by
    simp only [List.cons_append, chainOK, Bool.and_eq_true] at h ⊢
    exact ⟨h.1, by
      have := chainOK_take (y :: cur) op rest (by simpa using h.2)
      simpa using this⟩

/-- Feeding the rendered operation lines of a whole well-formed block back
into the builder rebuilds exactly that operation list. -/
theorem ops_feed (msz : Nat) (hms : 2 * msz ≤ 65536) :
    ∀ (ops₂ : List Op) (cur : List Op) (fs : List PFrame)
      (segs : List (List Op × Block)) (layer : Nat),
      opsWF msz (cur ++ ops₂) = true →
      prun msz ⟨fs, segs, cur⟩ (opsChars msz ops₂ layer) = .ok ⟨fs, segs, cur ++ ops₂⟩ := by
  intro ops₂
  induction ops₂ with
  | nil =>
    intro cur fs segs layer _
    simp [opsChars, prun]
  | cons op rest ih =>
    intro cur fs segs layer h
    have hwf := h
    unfold opsWF at hwf
    rw [Bool.and_eq_true] at hwf
    have hopOK : opOK msz op = true := by
      have := hwf.1
      rw [List.all_eq_true] at this
      exact this op (by simp)
    have hchain1 : chainOK (cur ++ [op]) = true := chainOK_take cur op rest hwf.2
    have hnext : opsWF msz ((cur ++ [op]) ++ rest) = true := by
      simpa [List.append_assoc] using h
    simp only [opsChars]
    refine prun_seq msz (renderOp_feed msz hms op hopOK fs segs cur layer hchain1) ?_
    rw [ih (cur ++ [op]) fs segs layer hnext]
    simp [List.append_assoc]

/-! ## `assemble` inverts the chain decomposition -/

theorem assemble_concat :
    ∀ (L : List (List Op × Block)) (o : List Op) (hdr last : Block),
      assemble (L ++ [(o, hdr)]) last
        = Block.mk o (some (setExit hdr (assemble L last))) none := by
  intro L
  induction L with
  | nil => intro o hdr last; rfl
  | cons p rest ih =>
    intro o hdr last
    obtain ⟨po, ph⟩ := p
    simp only [List.cons_append, assemble]
    exact ih o hdr (Block.mk po (some (setExit ph last)) none)

theorem assemble_inv (msz : Nat) :
    ∀ (n : Nat) (c : Block), c.size ≤ n → ChainWF msz c →
      assemble (chainSegs c) (Block.mk (chainLast c) none none) = c := by
  intro n
  induction n with
  | zero =>
    intro c hsz _
    exact absurd hsz (by have := c.size_pos; omega)
  | succ n ih =>
    intro c hsz hwf
    cases hwf with
    | last ops hops => rfl
    | seg ops h hops hh =>
      cases hh with
      | last hops2 e hops' he =>
        show assemble (chainSegs e ++ [(ops, Block.mk hops2 none none)]) _ = _
        rw [assemble_concat]
        have hsze : e.size ≤ n := by
          rw [size_mk_sn, size_mk_ns] at hsz
          omega
        have hlast : chainLast (Block.mk ops (some (Block.mk hops2 none (some e))) none)
            = chainLast e := rfl
        rw [hlast, ih e hsze he]
        rfl
      | seg hops2 h₂ e hops' hh₂ he =>
        show assemble (chainSegs e ++ [(ops, Block.mk hops2 (some h₂) none)]) _ = _
        rw [assemble_concat]
        have hsze : e.size ≤ n := by
          rw [size_mk_sn, size_mk_ss] at hsz
          omega
        have hlast : chainLast
            (Block.mk ops (some (Block.mk hops2 (some h₂) (some e))) none)
            = chainLast e := rfl
        rw [hlast, ih e hsze he]
        rfl

/-! ## Feeding a rendered subtree back into the builder -/

theorem headWF_split (msz : Nat) (h : Block) (hh : HeadWF msz h) :
    ∃ hops hnext e, h = Block.mk hops hnext (some e) ∧
      ChainWF msz (Block.mk hops hnext none) ∧ ChainWF msz e := by
  cases hh with
  | last ops e hops he => exact ⟨ops, none, e, rfl, ChainWF.last ops hops, he⟩
  | seg ops h₂ e hops hh₂ he => exact ⟨ops, some h₂, e, rfl, ChainWF.seg ops h₂ hops hh₂, he⟩

theorem size_with_exit (o : List Op) (no : Option Block) (e : Block) :
    (Block.mk o no (some e)).size = (Block.mk o no none).size + e.size := by
  cases no <;> simp [Block.size]

/-- The rendered text of a loop header, split for sequential feeding. -/
theorem renderBlock_header (msz : Nat) (hops : List Op) (hnext : Option Block)
    (e : Block) (layer : Nat) :
    renderBlock msz (Block.mk hops hnext (some e)) layer
      = joinChunks (print_tab layer) ++ (['['] ++ (['\n']
        ++ (renderBlock msz (Block.mk hops hnext none) (layer + 1)
        ++ (joinChunks (print_tab layer) ++ ([']'] ++ (['\n']
        ++ renderBlock msz e layer)))))) := by
  cases hnext with
  | none => simp [renderBlock, List.append_assoc]
  | some n => simp [renderBlock, List.append_assoc]

theorem prun_open (msz : Nat) (fs : List PFrame) (segs : List (List Op × Block))
    (cur : List Op) :
    prun msz ⟨fs, segs, cur⟩ ['['] = .ok ⟨⟨segs, cur⟩ :: fs, [], []⟩ := by
  simp [prun, pstep_open]

theorem prun_close (msz : Nat) (f : PFrame) (fs : List PFrame)
    (segs : List (List Op × Block)) (cur : List Op) :
    prun msz ⟨f :: fs, segs, cur⟩ [']']
      = .ok ⟨fs, (f.cur, assemble segs (Block.mk cur none none)) :: f.segs, []⟩ := by
  simp [prun, pstep_close]

/-- Feeding the normalized-source rendering of a well-formed chain into the
builder, starting with an empty current block, rebuilds the chain's segment
decomposition on top of the state. -/
theorem renderBlock_feed (msz : Nat) (hms : 2 * msz ≤ 65536) :
    ∀ (n : Nat) (b : Block), b.size ≤ n → ChainWF msz b →
      ∀ (fs : List PFrame) (segs : List (List Op × Block)) (layer : Nat),
        prun msz ⟨fs, segs, []⟩ (renderBlock msz b layer)
          = .ok ⟨fs, chainSegs b ++ segs, chainLast b⟩ := by
  intro n
  induction n with
  | zero =>
    intro b hsz _
    exact absurd hsz (by have := b.size_pos; omega)
  | succ n ih =>
    intro b hsz hwf fs segs layer
    cases hwf with
    | last ops hops =>
      show prun msz ⟨fs, segs, []⟩ (opsChars msz ops layer) = _
      rw [ops_feed msz hms ops [] fs segs layer (by simpa using hops)]
      simp [chainSegs, chainLast]
    | seg ops h hops hh =>
      obtain ⟨hops2, hnext, e, rfl, hc', he⟩ := headWF_split msz h hh
      have hsizes : (Block.mk hops2 hnext none).size ≤ n ∧ e.size ≤ n := by
        rw [size_mk_sn, size_with_exit] at hsz
        have h1 := (Block.mk hops2 hnext none).size_pos
        have h2 := e.size_pos
        omega
      show prun msz ⟨fs, segs, []⟩
          (opsChars msz ops layer
            ++ renderBlock msz (Block.mk hops2 hnext (some e)) layer) = _
      refine prun_seq msz (ops_feed msz hms ops [] fs segs layer (by simpa using hops)) ?_
      rw [renderBlock_header]
      refine prun_seq msz (prun_tab msz _ layer) ?_
      refine prun_seq msz (prun_open msz fs segs ([] ++ ops)) ?_
      refine prun_seq msz (prun_newline msz _) ?_
      refine prun_seq msz (ih (Block.mk hops2 hnext none) hsizes.1 hc'
        (⟨segs, [] ++ ops⟩ :: fs) [] (layer + 1)) ?_
      refine prun_seq msz (prun_tab msz _ layer) ?_
      refine prun_seq msz (prun_close msz ⟨segs, [] ++ ops⟩ fs _ _) ?_
      refine prun_seq msz (prun_newline msz _) ?_
      rw [ih e hsizes.2 he fs
        (((⟨segs, [] ++ ops⟩ : PFrame).cur,
          assemble (chainSegs (Block.mk hops2 hnext none) ++ [])
            (Block.mk (chainLast (Block.mk hops2 hnext none)) none none))
          :: (⟨segs, [] ++ ops⟩ : PFrame).segs)
        layer]
      rw [List.append_nil,
        assemble_inv msz n (Block.mk hops2 hnext none) hsizes.1 hc']
      have hsegs : chainSegs (Block.mk ops (some (Block.mk hops2 hnext (some e))) none)
          = chainSegs e ++ [(ops, Block.mk hops2 hnext none)] := rfl
      have hlast : chainLast (Block.mk ops (some (Block.mk hops2 hnext (some e))) none)
          = chainLast e := rfl
      rw [hsegs, hlast]
      simp [List.append_assoc]

/-! ## Corollaries connecting the emitter to the builder -/

/-- The full normalized-source output text of `emit_code` is the structural
rendering of the program (the BF target writes no file head or tail, and the
traversal starts with an empty open-loop stack). -/
theorem emit_code_bf_data (msz : Nat) (lbl : Block → String) (b : Block) :
    (strConcat (emit_code msz .bf lbl b)).data = renderBlock msz b 0 := by
  rw [strConcat_data]
  unfold emit_code
  rw [joinChunks_append, joinChunks_append]
  rw [walk_chunksBF msz lbl (Mw b []) b [] 0 (le_refl _)]
  simp [emit_file_head, emit_file_tail, joinChunks, popsRender]

/-- Re-parsing the emitted normalized source of a well-formed program yields
the program back. -/
theorem parse_roundtrip_of_wf (msz : Nat) (hms : 2 * msz ≤ 65536)
    (b : Block) (hwf : ChainWF msz b) (lbl : Block → String) :
    parse msz (strConcat (emit_code msz .bf lbl b)) = .ok b := by
  unfold parse
  rw [emit_code_bf_data]
  unfold parseChars
  rw [renderBlock_feed msz hms b.size b (le_refl _) hwf [] [] 0]
  show Except.ok (assemble (chainSegs b ++ []) (Block.mk (chainLast b) none none)) = _
  rw [List.append_nil, assemble_inv msz b.size b (le_refl _) hwf]

theorem strConcat_append (A B : List String) :
    strConcat (A ++ B) = strConcat A ++ strConcat B := by
  induction A with
  | nil => simp [strConcat]
  | cons s rest ih => simp [strConcat, ih, String.append_assoc]

/-! ## Claim theorems -/

/-- C1: for every source string the builder succeeds iff the `[`/`]` are
balanced and properly nested, and any unbalanced input fails with the correct
sub-kind as computed by the specification's bracket scan (a `]` with no open
`[` is `UnmatchedClose`; `[` left open at end of input is `UnmatchedOpen`);
in particular `"[[+]"` fails with `UnmatchedOpen` and `"+]"` with
`UnmatchedClose`. -/
theorem c1_builder_balanced : ∀ (src : String),
    ((∃ b, parse BF_MEMORY_SIZE src = .ok b) ↔ specBracketScan src.data 0 = none)
    ∧ (∀ e, parse BF_MEMORY_SIZE src = .error e ↔ specBracketScan src.data 0 = some e)
    ∧ parse BF_MEMORY_SIZE "[[+]" = .error .unmatchedOpen
    ∧ parse BF_MEMORY_SIZE "+]" = .error .unmatchedClose := by
  intro src
  have h := parseChars_spec BF_MEMORY_SIZE src.data
  refine ⟨?_, ?_, rfl, rfl⟩
  · unfold parse
    cases hp : parseChars BF_MEMORY_SIZE src.data with
    | ok b =>
      rw [hp] at h
      exact ⟨fun _ => by simpa using h.symm, fun _ => ⟨b, rfl⟩⟩
    | error e =>
      rw [hp] at h
      constructor
      · rintro ⟨b, hb⟩
        cases hb
      · intro hn
        rw [hn] at h
        simp at h
  · intro e
    unfold parse
    cases hp : parseChars BF_MEMORY_SIZE src.data with
    | ok b =>
      rw [hp] at h
      constructor
      · intro hb
        cases hb
      · intro hn
        rw [hn] at h
        simp at h
    | error e₀ =>
      rw [hp] at h
      simp only at h
      constructor
      · intro hb
        cases hb
        exact h.symm
      · intro hn
        rw [hn] at h
        simp at h
        rw [h]

/-- C2: for any source with only the eight bf characters that the builder
accepts, emitting the normalized-source target and re-running the builder on
the emitted text yields an IR equal to the original (same operation sequences
and `next`/`exit` shape) — regardless of the (unused) label assignment. -/
theorem c2_roundtrip : ∀ (S : String) (b : Block) (lbl : Block → String),
    S.data.all isBfChar = true → parse BF_MEMORY_SIZE S = .ok b →
    parse BF_MEMORY_SIZE (strConcat (emit_code BF_MEMORY_SIZE .bf lbl b)) = .ok b := by
  intro S b lbl _ hok
  exact parse_roundtrip_of_wf BF_MEMORY_SIZE (by decide) b
    (parse_wf BF_MEMORY_SIZE (by decide) S.data b hok) lbl

/-- Witness for C2 at the accepted source `"+[-]"`. -/
theorem c2_roundtrip_witness :
    ("+[-]" : String).data.all isBfChar = true
    ∧ parse BF_MEMORY_SIZE "+[-]"
        = .ok (.mk [.inc 1] (some (.mk [.inc 255] none (some (.mk [] none none)))) none)
    ∧ parse BF_MEMORY_SIZE (strConcat (emit_code BF_MEMORY_SIZE .bf (fun _ => "")
        (.mk [.inc 1] (some (.mk [.inc 255] none (some (.mk [] none none)))) none)))
      = .ok (.mk [.inc 1] (some (.mk [.inc 255] none (some (.mk [] none none)))) none) :=
  ⟨by decide, rfl,
    c2_roundtrip "+[-]" (.mk [.inc 1] (some (.mk [.inc 255] none (some (.mk [] none none)))) none)
      (fun _ => "") (by decide) rfl⟩

/-- C3 as stated is false: the builder keeps adjacent `read`/`read` pairs
(the C coalescing handles only `OP_TAG_INC` and `OP_TAG_SHIFT`), so the
source `",,"` yields a block whose two adjacent operations share the same
variant tag. -/
theorem c3_counterexample :
    parse BF_MEMORY_SIZE ",," = .ok (.mk [.read, .read] none none)
    ∧ distinctAdjTags (Block.ops (.mk [.read, .read] none none)) = false :=
  ⟨rfl, rfl⟩

/-- C3 (amended): in every program the builder returns, no two adjacent
operations of a block are both `Increment` or both `Shift` (`chainOK`), and
no stored operation is a no-op: every stored `Increment` delta is non-zero
mod 256 and every stored `Shift` distance non-zero mod the memory size
(`opOK` additionally bounds them), zero-valued coalescing results having been
removed.  Adjacent `Read`/`Read` or `Write`/`Write` pairs are kept. -/
theorem c3_amended : ∀ (src : String) (b : Block), parse BF_MEMORY_SIZE src = .ok b →
    ∀ blk ∈ preorder b,
      chainOK blk.ops = true ∧ blk.ops.all (opOK BF_MEMORY_SIZE) = true := by
  intro src b hok blk hblk
  have hwf := parse_wf BF_MEMORY_SIZE (by decide) src.data b hok
  have h := wf_preorder BF_MEMORY_SIZE b.size b (le_refl _) (Or.inl hwf) blk hblk
  unfold opsWF at h
  rw [Bool.and_eq_true] at h
  exact ⟨h.2, h.1⟩

/-- Witness for C3 (amended) at the source `",+."`. -/
theorem c3_amended_witness :
    parse BF_MEMORY_SIZE ",+." = .ok (.mk [.read, .inc 1, .write] none none)
    ∧ (chainOK (Block.ops (.mk [.read, .inc 1, .write] none none)) = true
      ∧ (Block.ops (.mk [.read, .inc 1, .write] none none)).all
          (opOK BF_MEMORY_SIZE) = true) :=
  ⟨rfl, c3_amended ",+." (.mk [.read, .inc 1, .write] none none) rfl
    (.mk [.read, .inc 1, .write] none none) (List.mem_cons_self _ _)⟩

/-- C4: an `Increment` whose magnitude exceeds half of 256 is rendered by the
normalized-source target as `256 - v` decrement characters, and a `Shift`
whose distance exceeds half the memory size as `msz - s` move-left
characters — the shorter direction. -/
theorem c4_shortest_path : ∀ (v s layer msz : Nat),
    256 < 2 * v → v < 256 → msz < 2 * s → s < msz →
    emit_op_inc .bf v layer
        = print_tab layer ++ List.replicate (256 - v) "-" ++ ["\n"]
    ∧ emit_op_shift msz .bf s layer
        = print_tab layer ++ List.replicate (msz - s) "<" ++ ["\n"] := by
  intro v s layer msz h1 h2 h3 h4
  constructor
  · unfold emit_op_inc
    rw [show inc_signed_count v = (v : Int) - 256 from if_pos (by omega)]
    rw [show ((v : Int) - 256).toNat = 0 from by omega,
      show (-((v : Int) - 256)).toNat = 256 - v from by omega]
    simp
  · unfold emit_op_shift
    rw [show shift_signed_count msz s = (s : Int) - (msz : Int) from if_pos (by omega)]
    rw [show ((s : Int) - (msz : Int)).toNat = 0 from by omega,
      show (-((s : Int) - (msz : Int))).toNat = msz - s from by omega]
    simp

/-- Witness for C4: `Increment(200)` renders as 56 `-` characters and
`Shift(2999)` (memory size 3000) as a single `<`. -/
theorem c4_shortest_path_witness :
    emit_op_inc .bf 200 0 = print_tab 0 ++ List.replicate (256 - 200) "-" ++ ["\n"]
    ∧ emit_op_shift 3000 .bf 2999 0
        = print_tab 0 ++ List.replicate (3000 - 2999) "<" ++ ["\n"] :=
  c4_shortest_path 200 2999 0 3000 (by decide) (by decide) (by decide) (by decide)

/-- C5: translating `"++[>+<-]"` with memory size 4 builds a root block with
the coalesced `Increment(2)`, a loop header with body
`Shift(1), Increment(1), Shift(3), Increment(255)` whose `exit` is an empty
terminal block, and the normalized-source emission reproduces exactly
`"++\n[\n    >\n    +\n    <\n    -\n]\n"`. -/
theorem c5_end_to_end :
    parse 4 "++[>+<-]"
      = .ok (.mk [.inc 2]
          (some (.mk [.shift 1, .inc 1, .shift 3, .inc 255] none
            (some (.mk [] none none)))) none)
    ∧ strConcat (emit_code 4 .bf (fun _ => "")
        (.mk [.inc 2]
          (some (.mk [.shift 1, .inc 1, .shift 3, .inc 255] none
            (some (.mk [] none none)))) none))
      = "++\n[\n    >\n    +\n    <\n    -\n]\n" :=
  ⟨rfl, rfl⟩

/-- C6 as stated is false for the assembly targets: their loop labels embed
the header block's storage address (C prints it with `%p`), which is not a
function of the input, so two runs whose allocations land at different
addresses produce different output text for the same accepted input.  Here
the accepted source `"[]"` is emitted under two different address
labellings. -/
theorem c6_counterexample :
    parse BF_MEMORY_SIZE "[]"
      = .ok (.mk [] (some (.mk [] none (some (.mk [] none none)))) none)
    ∧ strConcat (emit_code 3000 .nasmLinux (fun _ => "0x55555555")
        (.mk [] (some (.mk [] none (some (.mk [] none none)))) none))
      ≠ strConcat (emit_code 3000 .nasmLinux (fun _ => "0x77777777")
        (.mk [] (some (.mk [] none (some (.mk [] none none)))) none)) :=
  ⟨rfl, by decide⟩

/-- C6 (amended): the normalized-source target's output text is a pure
function of the IR — it does not depend on the block-address labelling at
all, so it is bit-identical across runs; the assembly targets are
deterministic only given the same labelling (same addresses). -/
theorem c6_amended : ∀ (msz : Nat) (b : Block) (lbl₁ lbl₂ : Block → String),
    strConcat (emit_code msz .bf lbl₁ b) = strConcat (emit_code msz .bf lbl₂ b) := by
  intro msz b lbl₁ lbl₂
  apply strExt
  rw [emit_code_bf_data, emit_code_bf_data]

/-- C7: the emitter's worklist traversal terminates — fuel `Mw b []` (the
program size) suffices and more fuel changes nothing —, visits every block
of the program exactly once (its visit trace is precisely the pre-order
enumeration of the block tree, whose length is the number of blocks), and
finishes with the nesting-depth counter back at zero; by construction the
loop halts only in the branch where the current block has no `next` and the
open-loop stack is empty, the single exit point of `emit_code`'s loop. -/
theorem c7_traversal : ∀ (msz : Nat) (tgt : Target) (lbl : Block → String) (b : Block),
    (∀ fuel, Mw b [] ≤ fuel →
      walk msz tgt lbl fuel b [] 0 = walk msz tgt lbl (Mw b []) b [] 0)
    ∧ (walk msz tgt lbl (Mw b []) b [] 0).visited = preorder b
    ∧ (walk msz tgt lbl (Mw b []) b [] 0).visited.length = b.size
    ∧ (walk msz tgt lbl (Mw b []) b [] 0).layerEnd = 0 := by
  intro msz tgt lbl b
  refine ⟨fun fuel hf => walk_fuel msz tgt lbl fuel (Mw b []) b [] 0 hf (le_refl _),
    ?_, ?_, ?_⟩
  · rw [walk_visited msz tgt lbl (Mw b []) b [] 0 (le_refl _)]
    simp [stackPre]
  · rw [walk_visited msz tgt lbl (Mw b []) b [] 0 (le_refl _)]
    simp [stackPre, preorder_length]
  · rw [walk_layerEnd msz tgt lbl (Mw b []) b [] 0 (le_refl _) (by simp)]
    simp

/-- Witness for C7 at a one-block program with surplus fuel. -/
theorem c7_traversal_witness :
    (walk 3000 .bf (fun _ => "") (Mw (.mk [] none none) []) (.mk [] none none) [] 0).visited
        = preorder (.mk [] none none)
    ∧ walk 3000 .bf (fun _ => "") 7 (.mk [] none none) [] 0
        = walk 3000 .bf (fun _ => "")
            (Mw (.mk [] none none) []) (.mk [] none none) [] 0 :=
  ⟨(c7_traversal 3000 .bf (fun _ => "") (.mk [] none none)).2.1,
    (c7_traversal 3000 .bf (fun _ => "") (.mk [] none none)).1 7 (by decide)⟩

/-- C8: a contiguous run of `+`/`-` characters whose net delta is 0 mod 256,
or of `<`/`>` characters whose net movement is 0 mod the memory size,
contributes nothing to the IR at its position: the builder produces the same
result as for the source with the run deleted. -/
theorem c8_zero_cancellation : ∀ (pre run post : List Char),
    (run.all (fun c => c = '+' || c = '-') = true → incNet run % 256 = 0 →
      parseChars BF_MEMORY_SIZE (pre ++ run ++ post)
        = parseChars BF_MEMORY_SIZE (pre ++ post))
    ∧ (run.all (fun c => c = '<' || c = '>') = true →
        shiftNet BF_MEMORY_SIZE run % BF_MEMORY_SIZE = 0 →
      parseChars BF_MEMORY_SIZE (pre ++ run ++ post)
        = parseChars BF_MEMORY_SIZE (pre ++ post)) := by
  intro pre run post
  have hinit : StWF BF_MEMORY_SIZE ⟨[], [], []⟩ :=
    ⟨rfl, fun p hp => absurd hp (List.not_mem_nil p),
      fun f hf => absurd hf (List.not_mem_nil f)⟩
  constructor
  · intro hall hnet
    have hpr : prun BF_MEMORY_SIZE ⟨[], [], []⟩ (pre ++ run ++ post)
        = prun BF_MEMORY_SIZE ⟨[], [], []⟩ (pre ++ post) := by
      rw [List.append_assoc, prun_append, prun_append]
      cases hp : prun BF_MEMORY_SIZE ⟨[], [], []⟩ pre with
      | error e => rfl
      | ok st₁ =>
        have hst₁ := prun_wf BF_MEMORY_SIZE (by decide) pre _ st₁ hinit hp
        obtain ⟨fs, segs, cur⟩ := st₁
        show prun BF_MEMORY_SIZE ⟨fs, segs, cur⟩ (run ++ post)
          = prun BF_MEMORY_SIZE ⟨fs, segs, cur⟩ post
        rw [prun_append,
          prun_incRun_id BF_MEMORY_SIZE run hall hnet fs segs cur hst₁.1]
    unfold parseChars
    rw [hpr]
  · intro hall hnet
    have hpr : prun BF_MEMORY_SIZE ⟨[], [], []⟩ (pre ++ run ++ post)
        = prun BF_MEMORY_SIZE ⟨[], [], []⟩ (pre ++ post) := by
      rw [List.append_assoc, prun_append, prun_append]
      cases hp : prun BF_MEMORY_SIZE ⟨[], [], []⟩ pre with
      | error e => rfl
      | ok st₁ =>
        have hst₁ := prun_wf BF_MEMORY_SIZE (by decide) pre _ st₁ hinit hp
        obtain ⟨fs, segs, cur⟩ := st₁
        show prun BF_MEMORY_SIZE ⟨fs, segs, cur⟩ (run ++ post)
          = prun BF_MEMORY_SIZE ⟨fs, segs, cur⟩ post
        rw [prun_append,
          prun_shiftRun_id BF_MEMORY_SIZE (by decide) (by decide) run hall hnet
            fs segs cur hst₁.1]
    unfold parseChars
    rw [hpr]

/-- Witness for C8: the net-zero runs `"+-"` and `"><"` inside
`"." ++ run ++ ","` contribute nothing. -/
theorem c8_zero_cancellation_witness :
    parseChars BF_MEMORY_SIZE ['.', '+', '-', ',']
        = parseChars BF_MEMORY_SIZE ['.', ',']
    ∧ parseChars BF_MEMORY_SIZE ['.', '>', '<', ',']
        = parseChars BF_MEMORY_SIZE ['.', ','] :=
  ⟨(c8_zero_cancellation ['.'] ['+', '-'] [',']).1 (by decide) (by decide),
    (c8_zero_cancellation ['.'] ['>', '<'] [',']).2 (by decide) (by decide)⟩

/-- C9: for every program and target, emission against a sink fails exactly
when the sink rejects a write (the sink accepts `fuel` writes); on success
the sink holds the whole output; on the first failed write emission stops
immediately — the failure is propagated and the sink is left holding
exactly the chunks written before the failure, a left part of the full
output, with nothing written after it. -/
theorem c9_sink_failure : ∀ (msz : Nat) (tgt : Target) (lbl : Block → String)
    (b : Block) (out : String) (fuel : Nat),
    ((∃ s', emit msz tgt lbl b ⟨out, fuel⟩ = .ok s')
      ↔ (emit_code msz tgt lbl b).length ≤ fuel)
    ∧ (∀ s', emit msz tgt lbl b ⟨out, fuel⟩ = .ok s' →
        s'.out = out ++ strConcat (emit_code msz tgt lbl b))
    ∧ (∀ s', emit msz tgt lbl b ⟨out, fuel⟩ = .error s' →
        s'.out = out ++ strConcat ((emit_code msz tgt lbl b).take fuel)
        ∧ ∃ rest, out ++ strConcat (emit_code msz tgt lbl b) = s'.out ++ rest) := by
  intro msz tgt lbl b out fuel
  unfold emit
  rw [feed_spec]
  by_cases hle : (emit_code msz tgt lbl b).length ≤ fuel
  · rw [if_pos hle]
    refine ⟨⟨fun _ => hle, fun _ => ⟨_, rfl⟩⟩, ?_, ?_⟩
    · intro s' hs'
      cases hs'
      rfl
    · intro s' hs'
      cases hs'
  · rw [if_neg hle]
    refine ⟨⟨?_, fun h => absurd h hle⟩, ?_, ?_⟩
    · rintro ⟨s', hs'⟩
      cases hs'
    · intro s' hs'
      cases hs'
    · intro s' hs'
      cases hs'
      refine ⟨rfl, strConcat ((emit_code msz tgt lbl b).drop fuel), ?_⟩
      show out ++ strConcat (emit_code msz tgt lbl b) = _
      rw [String.append_assoc, ← strConcat_append, List.take_append_drop]

/-- Witness for C9: a one-chunk NASM output against a sink that fails on the
first write. -/
theorem c9_sink_failure_witness :
    emit 3000 .nasmLibc (fun _ => "") (.mk [] none none) ⟨"", 0⟩
        = .error ⟨"", 0⟩
    ∧ (Sink.out ⟨"", 0⟩
        = "" ++ strConcat ((emit_code 3000 .nasmLibc (fun _ => "") (.mk [] none none)).take 0)
      ∧ ∃ rest, "" ++ strConcat (emit_code 3000 .nasmLibc (fun _ => "") (.mk [] none none))
          = Sink.out ⟨"", 0⟩ ++ rest) :=
  ⟨rfl, (c9_sink_failure 3000 .nasmLibc (fun _ => "") (.mk [] none none) "" 0).2.2
    ⟨"", 0⟩ rfl⟩

/-- C10: in every program the builder returns, every stored `Increment`
delta lies in `1..255` and every stored `Shift` distance in `1..2999`
(`opOK` at memory size 3000); consequently the 16-bit addition performed
when coalescing two `Shift` operations never wraps before the modular
reduction — for operands below 3000 the uint16 sum is the exact sum, and
the coalescing step computes the exact `(s + t) % 3000`. -/
theorem c10_ranges_no_wrap :
    (∀ (src : String) (b : Block), parse BF_MEMORY_SIZE src = .ok b →
      ∀ blk ∈ preorder b, blk.ops.all (opOK BF_MEMORY_SIZE) = true)
    ∧ (∀ s t : Nat, s < 3000 → t < 3000 → u16add s t = s + t)
    ∧ (∀ s t : Nat, s < 3000 → t < 3000 →
        appendLast 3000 (.shift s) (.shift t)
          = if (s + t) % 3000 = 0 then [] else [.shift ((s + t) % 3000)]) := by
  refine ⟨?_, ?_, ?_⟩
  · intro src b hok blk hblk
    have hwf := parse_wf BF_MEMORY_SIZE (by decide) src.data b hok
    have h := wf_preorder BF_MEMORY_SIZE b.size b (le_refl _) (Or.inl hwf) blk hblk
    unfold opsWF at h
    rw [Bool.and_eq_true] at h
    exact h.1
  · intro s t hs ht
    unfold u16add
    exact Nat.mod_eq_of_lt (by omega)
  · intro s t hs ht
    show (if u16add s t % 3000 = 0 then ([] : List Op)
      else [Op.shift (u16add s t % 3000)]) = _
    rw [show u16add s t = s + t from Nat.mod_eq_of_lt (by omega)]

/-- Witness for C10 at the source `"><<"` (coalesced to a single
`Shift(2999)`) and at the concrete operands 2999 and 2999. -/
theorem c10_ranges_no_wrap_witness :
    parse BF_MEMORY_SIZE "><<" = .ok (.mk [.shift 2999] none none)
    ∧ ((Block.ops (.mk [.shift 2999] none none)).all (opOK BF_MEMORY_SIZE) = true)
    ∧ u16add 2999 2999 = 2999 + 2999 :=
  ⟨rfl,
    (c10_ranges_no_wrap.1 "><<" (.mk [.shift 2999] none none) rfl
      (.mk [.shift 2999] none none) (List.mem_cons_self _ _)),
    c10_ranges_no_wrap.2.1 2999 2999 (by decide) (by decide)⟩

end BB
